import Mathlib

/-!
Verification development for the lloyds-market-news-digest repository.

This file gives a shallow embedding, in Lean 4, of the parts of the
repository that the verified properties are about:

* `src/lloyds_digest/scoring/method_prefs.py` (per-domain extraction-method
  preference selection with cooldown/hysteresis);
* `src/lloyds_digest/scoring/heuristics.py` (text acceptance heuristic);
* `src/lloyds_digest/extractors/engine.py` (extraction engine cascade);
* `src/lloyds_digest/pipeline.py` (LLM gating stages of `_article_to_items`);
* `src/lloyds_digest/discovery/url_utils.py` and
  `scripts/render_digest_llm_compare.py` (URL canonicalisation, digest
  dedup, per-domain cap).

Modelling conventions, used throughout:

* Python `str` values are modelled as `List Char` (with `String` wrappers
  where convenient); Python string indices/slices become list operations.
* Python `float` arithmetic is modelled exactly over `ℚ`.  The success
  rates, scores and thresholds compared by the code are small decimal
  fractions far from the rounding granularity of IEEE doubles, so the
  rational model agrees with the float computation at every comparison
  performed in the proofs below.
* `datetime` values are modelled as `Int` (an absolute timestamp in
  seconds); `timedelta(hours=h)` becomes `h * 3600`.  Only ordering and
  addition are used by the code.
* Python `None` becomes `none : Option _`.  Python truthiness tests on
  optionals of strings/datetimes are modelled where they occur.
* Fallible Python code (code that can raise) is modelled in `Except`.
* Python `list.sort(key=k, reverse=True)` is a *stable* descending sort.
  A stable sort with respect to a total preorder is unique, so it is
  modelled by a structural insertion sort `pySortRevBy` using the
  preorder "key of the left argument is lexicographically ≥ key of the
  right argument".
-/

/-! ## Python string primitives -/

/-- The ASCII whitespace characters recognised by Python's default
`str.strip` / `str.split` (space, tab, newline, carriage return,
vertical tab, form feed).  Python additionally treats some non-ASCII
Unicode code points as whitespace; the texts handled by this program are
scored by ASCII-oriented thresholds and the claims quantify over
arbitrary texts under this whitespace set. -/
def pyIsSpace (c : Char) : Bool :=
  c = ' ' || c = '\t' || c = '\n' || c = '\x0d' || c = '\x0b' || c = '\x0c'

/-- Python `str.strip()`: remove leading and trailing whitespace. -/
def pyStrip (l : List Char) : List Char :=
  ((l.dropWhile pyIsSpace).reverse.dropWhile pyIsSpace).reverse

/-- Worker for `pySplit`: `acc` holds the (reversed) current run of
non-whitespace characters. -/
def pySplitGo : List Char → List Char → List (List Char)
  | [], acc => if acc.isEmpty then [] else [acc.reverse]
  | c :: cs, acc =>
    if pyIsSpace c then
      if acc.isEmpty then pySplitGo cs [] else acc.reverse :: pySplitGo cs []
    else pySplitGo cs (c :: acc)

/-- Python `str.split()` (no separator argument): the list of maximal
nonempty runs of non-whitespace characters. -/
def pySplit (l : List Char) : List (List Char) :=
  pySplitGo l []

/-! ## `scoring/heuristics.py` -/

/-- `HeuristicThresholds` from `scoring/heuristics.py`
(defaults `min_chars=400`, `min_words=60`). -/
structure HeuristicThresholds where
  min_chars : Int
  min_words : Int
deriving DecidableEq, Repr

/-- The default thresholds. -/
def defaultThresholds : HeuristicThresholds := ⟨400, 60⟩

/-- `evaluate_text` from `scoring/heuristics.py`.

```python
def evaluate_text(text, thresholds=None):
    thresholds = thresholds or HeuristicThresholds()
    text = text.strip()
    if not text:
        return "TOO_SHORT", 0.0
    char_count = len(text)
    word_count = len(text.split())
    if char_count < thresholds.min_chars or word_count < thresholds.min_words:
        score = min(char_count / thresholds.min_chars, word_count / thresholds.min_words)
        return "TOO_SHORT", max(score, 0.0)
    score = min(char_count / thresholds.min_chars, word_count / thresholds.min_words)
    return "ACCEPT", score
```

The Python divisions raise `ZeroDivisionError` when a threshold is `0`;
the claims are about positive thresholds, where the function is total. -/
def evaluate_text (text : List Char) (thresholds : HeuristicThresholds) :
    String × ℚ :=
  let t := pyStrip text
  if t.isEmpty then ("TOO_SHORT", 0)
  else
    let char_count : Int := t.length
    let word_count : Int := (pySplit t).length
    let score : ℚ :=
      min ((char_count : ℚ) / (thresholds.min_chars : ℚ))
        ((word_count : ℚ) / (thresholds.min_words : ℚ))
    if char_count < thresholds.min_chars ∨ word_count < thresholds.min_words then
      ("TOO_SHORT", max score 0)
    else
      ("ACCEPT", score)

/-! ## `scoring/method_prefs.py` -/

/-- `MethodStats` from `scoring/method_prefs.py`.

The dataclass annotates `attempts`/`successes` as `int`, but Python does
not enforce annotations at runtime and `success_rate` is computed with
float division; `successes` is modelled as `ℚ` so that the success
rates named by the specification (e.g. rate `0.5` over `5` attempts) are
exactly representable, and `success_rate` is exact division over `ℚ`. -/
structure MethodStats where
  method : String
  attempts : Int
  successes : ℚ
  median_duration_ms : Option Int := none
  last_success_at : Option Int := none
  last_attempt_at : Option Int := none
deriving DecidableEq, Repr

/-- `MethodStats.success_rate`: `0.0` when `attempts <= 0`, else
`successes / attempts`. -/
def MethodStats.success_rate (s : MethodStats) : ℚ :=
  if s.attempts ≤ 0 then 0 else s.successes / (s.attempts : ℚ)

/-- `MethodPrefs` from `scoring/method_prefs.py`. -/
structure MethodPrefs where
  domain : String
  primary_method : String
  fallback_methods : List String
  confidence : ℚ
  last_changed_at : Option Int := none
  locked_until : Option Int := none
  drift_flag : Bool := false
  drift_notes : Option String := none
deriving DecidableEq, Repr

/-- The sort key used by `select_method_prefs`:
`(s.success_rate, -1 * (s.median_duration_ms or 0))`. -/
def methodSortKey (s : MethodStats) : ℚ × Int :=
  (s.success_rate, -1 * (s.median_duration_ms.getD 0))

/-- Lexicographic comparison of sort keys. -/
def keyLe (a b : ℚ × Int) : Prop :=
  a.1 < b.1 ∨ (a.1 = b.1 ∧ a.2 ≤ b.2)

instance (a b : ℚ × Int) : Decidable (keyLe a b) := by
  unfold keyLe; infer_instance

/-- Stable insertion of `a` into `l` for the descending order on
`methodSortKey`: `a` is placed before the first element whose key is ≤
its own, hence after strictly greater keys and before ties — exactly the
placement a stable descending sort gives an element relative to the
elements that followed it. -/
def revInsert (a : MethodStats) : List MethodStats → List MethodStats
  | [] => [a]
  | b :: bs =>
    if keyLe (methodSortKey b) (methodSortKey a) then a :: b :: bs
    else b :: revInsert a bs

/-- `eligible.sort(key=lambda s: (s.success_rate, -1*(s.median_duration_ms or 0)), reverse=True)`:
Python's stable descending sort, modelled by stable insertion sort
(the stable sort for a total preorder is unique). -/
def pySortRevBy : List MethodStats → List MethodStats
  | [] => []
  | a :: l => revInsert a (pySortRevBy l)

/-- Render `q` rounded to two decimal places with round-half-to-even,
modelling Python `f"{x:.2f}"` on the success rates interpolated into
`drift_notes`. -/
def formatRat2 (q : ℚ) : String :=
  let x : ℚ := q * 100
  let n : Int := Rat.floor x
  let r : Int :=
    if x - n > 1/2 then n + 1
    else if x - n < 1/2 then n
    else if n % 2 = 0 then n else n + 1
  let sign := if r < 0 then "-" else ""
  let a := r.natAbs
  let frac := a % 100
  let fracStr := (if frac < 10 then "0" else "") ++ toString frac
  sign ++ toString (a / 100) ++ "." ++ fracStr

/-- `_build_prefs` from `scoring/method_prefs.py`.  `cooldown` is an
optional `timedelta` (in seconds); note `changed_at + cooldown if cooldown
else None` tests the *truthiness* of the timedelta, so a zero cooldown
also yields `locked_until = None`. -/
def _build_prefs (domain : String) (primary : MethodStats)
    (eligible : List MethodStats) (changed_at : Int) (cooldown : Option Int)
    (min_success_rate : ℚ) : MethodPrefs :=
  let fallback := (eligible.filter (fun stat => stat.method ≠ primary.method)).map
    (fun stat => stat.method)
  let drift_flag := primary.success_rate < min_success_rate
  let drift_notes :=
    if drift_flag then
      some ("primary_success_rate=" ++ formatRat2 primary.success_rate)
    else none
  let locked_until :=
    match cooldown with
    | none => none
    | some c => if c = 0 then none else some (changed_at + c)
  { domain := domain
    primary_method := primary.method
    fallback_methods := fallback
    confidence := primary.success_rate
    last_changed_at := some changed_at
    locked_until := locked_until
    drift_flag := drift_flag
    drift_notes := drift_notes }

/-- Truthiness of `current and current.locked_until and current.locked_until > now`
for a `current` that exists (`datetime` values are always truthy). -/
def lockActive (cur : MethodPrefs) (now : Int) : Bool :=
  match cur.locked_until with
  | some t => now < t
  | none => false

/-- `select_method_prefs` from `scoring/method_prefs.py`.  All keyword
parameters are explicit (source defaults: `min_attempts=3`,
`cooldown_hours=24`, `promote_margin=0.15`, `min_success_rate=0.4`).
The Python code checks `if not eligible: return current` and then sorts
`eligible` in place and reads `eligible[0]`; here the sorted list is
matched directly, which is equivalent because the sort preserves
emptiness (`pySortRevBy_eq_nil`). -/
def select_method_prefs (domain : String) (stats : List MethodStats)
    (current : Option MethodPrefs) (now : Int) (min_attempts : Int)
    (cooldown_hours : Int) (promote_margin : ℚ) (min_success_rate : ℚ) :
    Option MethodPrefs :=
  match pySortRevBy (stats.filter (fun s => min_attempts ≤ s.attempts)) with
  | [] => current
  | best :: rest =>
    match current with
    | some cur =>
      if lockActive cur now then some cur
      else
        match (best :: rest).find? (fun s => s.method == cur.primary_method) with
        | some current_stat =>
          if best.method ≠ cur.primary_method ∧
              current_stat.success_rate + promote_margin ≤ best.success_rate then
            some (_build_prefs domain best (best :: rest) now
              (some (cooldown_hours * 3600)) min_success_rate)
          else
            some (_build_prefs domain current_stat (best :: rest)
              (cur.last_changed_at.getD now) none min_success_rate)
        | none =>
          some (_build_prefs domain best (best :: rest) now
            (some (cooldown_hours * 3600)) min_success_rate)
    | none =>
      some (_build_prefs domain best (best :: rest) now
        (some (cooldown_hours * 3600)) min_success_rate)

/-! ## Concrete inputs used by witnesses and counterexamples -/

/-- Stats for method `a`: 5 attempts, success rate `0.5` (the spec's
hysteresis scenario). -/
def statA05 : MethodStats := { method := "a", attempts := 5, successes := 5/2 }

/-- Stats for method `b`: 5 attempts, success rate `0.6`. -/
def statB06 : MethodStats := { method := "b", attempts := 5, successes := 3 }

/-- Stats for method `b`: 5 attempts, success rate `0.7`. -/
def statB07 : MethodStats := { method := "b", attempts := 5, successes := 7/2 }

/-- Current prefs with primary `a` and no lock. -/
def curPrefsA : MethodPrefs :=
  { domain := "d", primary_method := "a", fallback_methods := []
    confidence := 1/2 }

/-- Current prefs with primary `a` whose lock expired at time `5`
(`last_changed_at = 3`). -/
def curPrefsExpired : MethodPrefs :=
  { domain := "d", primary_method := "a", fallback_methods := []
    confidence := 1/2, last_changed_at := some 3, locked_until := some 5 }

/-- Current prefs with a lock active until time `82800` (23 hours,
in seconds, after time 0). -/
def curPrefsLocked : MethodPrefs :=
  { domain := "example.com", primary_method := "a", fallback_methods := ["b"]
    confidence := 2/5, last_changed_at := some (-3600), locked_until := some 82800 }

/-! ## `models.py` and `extractors/engine.py`

The engine is modelled for runs without persistence (`postgres=None`,
`mongo=None`), which is the configuration the claim quantifies over: with
both repositories `None` the code skips every store write and uses
`self.extractors` in the given order (no per-domain reordering), and the
attempt bookkeeping has no effect on the returned value.  An extractor's
`extract` is a fallible call, modelled in `Except`; the engine body
itself contains no `try`/`except`. -/

/-- The fields of `Candidate` (`models.py`) read by the engine. -/
structure Candidate where
  candidate_id : String
  source_id : String
  url : List Char
  title : Option (List Char) := none
  published_at : Option Int := none
deriving DecidableEq, Repr

/-- The fields of `ExtractionResult` (`models.py`) read by the engine
(`extracted_at` and the metadata dict are only copied into store
payloads, which the modelled configuration skips). -/
structure ExtractionResult where
  candidate_id : String
  method : String
  title : Option (List Char) := none
  text : Option (List Char) := none
  html : Option (List Char) := none
  success : Bool := true
  error : Option (List Char) := none
deriving DecidableEq, Repr

/-- `ArticleRecord` (`models.py`) as built by the engine;
`metadata_score` models the `metadata={"score": score}` entry and
`created_at` (a wall-clock default) is omitted. -/
structure ArticleRecord where
  article_id : String
  source_id : String
  url : List Char
  title : Option (List Char) := none
  published_at : Option Int := none
  body_text : Option (List Char) := none
  extraction_method : Option String := none
  metadata_score : ℚ := 0
deriving DecidableEq, Repr

/-- Python `a or b` on optional strings (`None` and `""` are falsy). -/
def pyOrStr : Option (List Char) → Option (List Char) → Option (List Char)
  | some s, b => if s.isEmpty then b else some s
  | none, b => b

/-- `(result.text or "").replace("\x00", "")`. -/
def removeNulls (s : List Char) : List Char :=
  s.filter (fun c => c ≠ '\x00')

/-- An extractor strategy: `name` plus a fallible `extract`. -/
structure Extractor where
  name : String
  extract : List Char → Except String ExtractionResult

/-- `ExtractionEngine.run` (`extractors/engine.py`) without repositories:
try each extractor in order; a raised exception propagates (the loop body
has no handler); clean the text, score it with `evaluate_text` at the
default thresholds, skip to the next extractor unless the decision is
`ACCEPT`, and build the `ArticleRecord` for the first `ACCEPT`. -/
def engineRun (extractors : List Extractor) (candidate : Candidate)
    (html : List Char) : Except String (Option ArticleRecord) :=
  match extractors with
  | [] => .ok none
  | e :: rest =>
    match e.extract html with
    | .error exc => .error exc
    | .ok result =>
      let cleaned := removeNulls (result.text.getD [])
      let ds := evaluate_text cleaned defaultThresholds
      if ds.1 ≠ "ACCEPT" then engineRun rest candidate html
      else .ok (some
        { article_id := candidate.candidate_id
          source_id := candidate.source_id
          url := candidate.url
          title := pyOrStr result.title candidate.title
          published_at := candidate.published_at
          body_text := some cleaned
          extraction_method := some e.name
          metadata_score := ds.2 })

/-- The extraction method recorded in a successful engine outcome. -/
def engineOutcomeMethod : Except String (Option ArticleRecord) → Option String
  | .ok (some a) => a.extraction_method
  | _ => none

/-- An extractor whose `extract` raises. -/
def raisingExtractor : Extractor :=
  { name := "raiser", extract := fun _ => .error "boom" }

/-- A body long enough to be accepted at the default thresholds:
60 words of 7 characters (480 characters in all). -/
def longText : List Char :=
  (List.replicate 60 "aaaaaaa ".toList).flatten

/-- An extractor returning `longText` successfully. -/
def goodExtractor : Extractor :=
  { name := "good"
    extract := fun _ => .ok
      { candidate_id := "", method := "good", text := some longText } }

/-- An extractor returning an empty (`TOO_SHORT`) result, with
`success=False`, as the real extractors do on a missing dependency. -/
def shortExtractor : Extractor :=
  { name := "short"
    extract := fun _ => .ok
      { candidate_id := "", method := "short", text := some []
        success := false, error := some "No content extracted".toList } }

/-- A concrete candidate for the engine claims. -/
def exCandidate : Candidate :=
  { candidate_id := "c1", source_id := "primary:example.com"
    url := "https://example.com/a".toList }

/-! ## `pipeline.py`: the LLM gate of `_article_to_items`

The three LLM stage calls (`relevance`, `classify`, `summarise`) are
network calls behind `_run_llm_stage`; each call outcome is modelled as
an `Except String StageResult` input.  As built by the `ai` modules, a
stage returns the dict `{"cached": ..., "raw": ..., "parsed": ...}`
(`parsed` is `{}` when the response is not valid JSON), so a returned
result is always a truthy, non-empty dict; `Parsed` collects the fields
the pipeline reads from `parsed` (`None` for an absent or
differently-typed value).  The run is modelled without repositories
(`postgres=None`, `mongo=None`): the `insert_llm_usage` call (itself
wrapped in `try`/`except`) and the rejection audit records are skipped. -/

/-- The fields read from a stage's `parsed` dict.  `relevant` is
`some b` only for an actual JSON boolean (the code tests
`relevant_flag is False`); `confidence` is `some q` only for a numeric
value (`isinstance(confidence, (int, float))`). -/
structure Parsed where
  relevant : Option Bool := none
  confidence : Option ℚ := none
  reason : Option (List Char) := none
  label : Option (List Char) := none
  bullets : Option (List (List Char)) := none
deriving DecidableEq, Repr

/-- A stage call's returned dict `{"cached", "raw", "parsed"}`. -/
structure StageResult where
  cached : Bool := false
  raw : List Char := []
  parsed : Parsed := {}
deriving DecidableEq, Repr

/-- `_run_llm_stage` (`pipeline.py`) without a postgres repository: a
raised exception is caught, appends a warning and yields `None`; a
returned result is passed through. -/
def _run_llm_stage (stage : String) (call : Except String StageResult)
    (warnings : List String) : Option StageResult × List String :=
  match call with
  | .error exc => (none, warnings ++ ["LLM " ++ stage ++ " failed: " ++ exc])
  | .ok result => (some result, warnings)

/-- `_split_sentences` worker (`current` is reversed). -/
def splitSentencesGo : List Char → List Char → List (List Char)
  | [], current =>
    let sentence := pyStrip current.reverse
    if sentence.isEmpty then [] else [sentence]
  | c :: cs, current =>
    if c = '.' || c = '!' || c = '?' then
      let sentence := pyStrip (c :: current).reverse
      if sentence.isEmpty then splitSentencesGo cs []
      else sentence :: splitSentencesGo cs []
    else splitSentencesGo cs (c :: current)

/-- `_split_sentences` (`pipeline.py`): punctuation-based splitting. -/
def _split_sentences (text : List Char) : List (List Char) :=
  splitSentencesGo text []

/-- `_summarize_text` (`pipeline.py`) with the default
`max_sentences = 3`. -/
def _summarize_text (text : List Char) : Option (List (List Char)) :=
  let cleaned := List.intercalate [' '] (pySplit text)
  if cleaned.isEmpty then none
  else
    let bullets := ((_split_sentences cleaned).map pyStrip).filter
      (fun s => !s.isEmpty)
    if bullets.isEmpty then none else some (bullets.take 3)

/-- `DigestItem` (`reporting/digest_renderer.py`). -/
structure DigestItem where
  title : List Char
  url : List Char
  summary : Option (List (List Char))
  score : Option ℚ
  source_type : List Char
  topic : List Char
  why_it_matters : Option (List Char) := none
deriving DecidableEq, Repr

/-- The LLM section of `_article_to_items` (`pipeline.py`, lines
359–453), for a candidate that passed the keyword gate with
`_llm_enabled()`: run the three stages on the given call outcomes and
build the `DigestItem` list (`[]` exactly on an explicit
`relevant=False`).  Inputs are the values live at line 359: `topic0`
(topic from candidate metadata), `score0` (article metadata score,
possibly overwritten by a numeric confidence), `source_type`,
`raw_text` (boilerplate-stripped body), the article/candidate titles and
the article url.  Returns the items together with the warnings list. -/
def articleLlmItems (relevanceCall classifyCall summariseCall :
      Except String StageResult)
    (topic0 : List Char) (score0 : Option ℚ)
    (source_type : Option (List Char)) (raw_text : List Char)
    (articleTitle candidateTitle : Option (List Char))
    (articleUrl : List Char) (warnings0 : List String) :
    List DigestItem × List String :=
  let rw1 := _run_llm_stage "relevance" relevanceCall warnings0
  let why_it_matters :=
    match rw1.1 with
    | some r => r.parsed.reason
    | none => none
  let rejected : Bool :=
    match rw1.1 with
    | some r => r.parsed.relevant == some false
    | none => false
  if rejected then ([], rw1.2)
  else
    let score1 :=
      match rw1.1 with
      | some r =>
        match r.parsed.confidence with
        | some c => some c
        | none => score0
      | none => score0
    let cw2 := _run_llm_stage "classify" classifyCall rw1.2
    let topic1 :=
      match cw2.1 with
      | some r =>
        match r.parsed.label with
        | some lb => if (pyStrip lb).isEmpty then topic0 else pyStrip lb
        | none => topic0
      | none => topic0
    let sw3 := _run_llm_stage "summarise" summariseCall cw2.2
    let summary0 : Option (List (List Char)) :=
      match sw3.1 with
      | some r =>
        match r.parsed.bullets with
        | some bs =>
          if bs.isEmpty then none
          else some ((bs.map pyStrip).filter (fun b => !b.isEmpty))
        | none => none
      | none => none
    let summary :=
      match summary0 with
      | some s => some s
      | none => _summarize_text raw_text
    let title :=
      match pyOrStr articleTitle candidateTitle with
      | some t => if t.isEmpty then articleUrl else t
      | none => articleUrl
    ([{ title := title
        url := articleUrl
        summary := summary
        score := score1
        source_type := source_type.getD "unknown".toList
        topic := topic1
        why_it_matters := why_it_matters }], sw3.2)

/-- Whether the relevance stage outcome rejects the candidate: only a
successful call whose parsed response has `relevant = False`. -/
def relevanceRejected : Except String StageResult → Bool
  | .ok r => r.parsed.relevant == some false
  | .error _ => false

/-! ## `urllib.parse` primitives

`canonicalise_url` (`discovery/url_utils.py`), `_canonical_url` and
`_domain` (`scripts/render_digest_llm_compare.py`) are thin layers over
CPython's `urllib.parse`; the pieces they use (`urlsplit`, `urlunsplit`,
`parse_qsl` with `keep_blank_values=True`, `urlencode` with
`quote_plus`, `unquote`) are embedded here from the CPython source.
Omissions, none of which change a returned value: the `ValueError`
branches of `urlsplit` (unbracketed-IPv6 and non-ASCII netloc
validation, on which Python raises instead of returning) are dropped,
and `str.lower()` is modelled on ASCII letters. -/

/-- Python `str.lower()` on an ASCII letter (other characters kept). -/
def pyToLower (c : Char) : Char :=
  if 'A' ≤ c ∧ c ≤ 'Z' then Char.ofNat (c.toNat + 32) else c

/-- `str.lower()` over a string. -/
def toLowerList (l : List Char) : List Char :=
  l.map pyToLower

/-- Split a string at the first occurrence of `sep` (the separator is
dropped); `none` when `sep` does not occur.  Models `str.find` plus
slicing, and `str.split(sep, 1)`. -/
def splitFirst (sep : Char) : List Char → Option (List Char × List Char)
  | [] => none
  | c :: cs =>
    if c = sep then some ([], cs)
    else (splitFirst sep cs).map (fun p => (c :: p.1, p.2))

/-- `str.split(sep)` (with an explicit separator: empty pieces kept). -/
def splitCharGo (sep : Char) : List Char → List Char → List (List Char)
  | [], acc => [acc.reverse]
  | c :: cs, acc =>
    if c = sep then acc.reverse :: splitCharGo sep cs []
    else splitCharGo sep cs (c :: acc)

/-- `str.split(sep)`: `"a&b" ↦ ["a", "b"]`, `"" ↦ [""]`. -/
def splitChar (sep : Char) (l : List Char) : List (List Char) :=
  splitCharGo sep l []

/-- The characters always left unencoded by `urllib.parse.quote`
(`_ALWAYS_SAFE`): ASCII letters, digits, `_.-~`. -/
def alwaysSafe (c : Char) : Bool :=
  c.isAlpha || c.isDigit || c = '_' || c = '.' || c = '-' || c = '~'

/-- The `n`-th uppercase hexadecimal digit. -/
def hexDigit (n : Nat) : Char :=
  "0123456789ABCDEF".toList.getD n '0'

/-- The numeric value of a hexadecimal digit (`_hextobyte` accepts both
cases). -/
def hexVal : Char → Option Nat
  | c =>
    if '0' ≤ c ∧ c ≤ '9' then some (c.toNat - 48)
    else if 'a' ≤ c ∧ c ≤ 'f' then some (c.toNat - 87)
    else if 'A' ≤ c ∧ c ≤ 'F' then some (c.toNat - 55)
    else none

/-- UTF-8 encoding of one scalar value (Python `str.encode("utf-8")`
per character). -/
def utf8EncodeChar (c : Char) : List Nat :=
  let v := c.toNat
  if v < 0x80 then [v]
  else if v < 0x800 then [0xC0 + v / 0x40, 0x80 + v % 0x40]
  else if v < 0x10000 then
    [0xE0 + v / 0x1000, 0x80 + (v / 0x40) % 0x40, 0x80 + v % 0x40]
  else
    [0xF0 + v / 0x40000, 0x80 + (v / 0x1000) % 0x40,
      0x80 + (v / 0x40) % 0x40, 0x80 + v % 0x40]

/-- UTF-8 encoding of a string. -/
def utf8Encode (l : List Char) : List Nat :=
  l.flatMap utf8EncodeChar

/-- A UTF-8 continuation byte. -/
def isCont (b : Nat) : Bool :=
  0x80 ≤ b ∧ b < 0xC0

/-- The U+FFFD replacement character. -/
def replChar : Char :=
  Char.ofNat 0xFFFD

/-- UTF-8 decoding worker with `errors="replace"`: one U+FFFD per
maximal ill-formed subpart, rejecting overlong forms and surrogates as
CPython does.  Every step consumes at least one byte and one unit of
fuel, so any fuel above the byte count is enough (the fuel-exhausted
branch is unreachable from `utf8DecodeReplace`). -/
def utf8DecodeGo : Nat → List Nat → List Char
  | 0, _ => []
  | _, [] => []
  | fuel + 1, b0 :: rest =>
    if b0 < 0x80 then Char.ofNat b0 :: utf8DecodeGo fuel rest
    else if b0 < 0xC2 then replChar :: utf8DecodeGo fuel rest
    else if b0 < 0xE0 then
      match rest with
      | [] => [replChar]
      | b1 :: rest2 =>
        if isCont b1 then
          Char.ofNat ((b0 - 0xC0) * 0x40 + (b1 - 0x80)) ::
            utf8DecodeGo fuel rest2
        else replChar :: utf8DecodeGo fuel (b1 :: rest2)
    else if b0 < 0xF0 then
      match rest with
      | [] => [replChar]
      | b1 :: rest2 =>
        if (if b0 = 0xE0 then decide (0xA0 ≤ b1 ∧ b1 < 0xC0)
            else if b0 = 0xED then decide (0x80 ≤ b1 ∧ b1 < 0xA0)
            else isCont b1) then
          match rest2 with
          | [] => [replChar]
          | b2 :: rest3 =>
            if isCont b2 then
              Char.ofNat ((b0 - 0xE0) * 0x1000 + (b1 - 0x80) * 0x40 +
                (b2 - 0x80)) :: utf8DecodeGo fuel rest3
            else replChar :: utf8DecodeGo fuel (b2 :: rest3)
        else replChar :: utf8DecodeGo fuel (b1 :: rest2)
    else if b0 < 0xF5 then
      match rest with
      | [] => [replChar]
      | b1 :: rest2 =>
        if (if b0 = 0xF0 then decide (0x90 ≤ b1 ∧ b1 < 0xC0)
            else if b0 = 0xF4 then decide (0x80 ≤ b1 ∧ b1 < 0x90)
            else isCont b1) then
          match rest2 with
          | [] => [replChar]
          | b2 :: rest3 =>
            if isCont b2 then
              match rest3 with
              | [] => [replChar]
              | b3 :: rest4 =>
                if isCont b3 then
                  Char.ofNat ((b0 - 0xF0) * 0x40000 + (b1 - 0x80) * 0x1000 +
                    (b2 - 0x80) * 0x40 + (b3 - 0x80)) ::
                    utf8DecodeGo fuel rest4
                else replChar :: utf8DecodeGo fuel (b3 :: rest4)
            else replChar :: utf8DecodeGo fuel (b2 :: rest3)
        else replChar :: utf8DecodeGo fuel (b1 :: rest2)
    else replChar :: utf8DecodeGo fuel rest

/-- UTF-8 decoding with `errors="replace"` (Python
`bytes.decode("utf-8", "replace")`). -/
def utf8DecodeReplace (l : List Nat) : List Char :=
  utf8DecodeGo (l.length + 1) l

/-- `urllib.parse.quote_plus` with `safe=''` on one character: safe
characters pass, a space becomes `+`, everything else is the
percent-encoding of its UTF-8 bytes (uppercase hex). -/
def quotePlusChar (c : Char) : List Char :=
  if alwaysSafe c then [c]
  else if c = ' ' then ['+']
  else (utf8EncodeChar c).flatMap
    (fun b => '%' :: hexDigit (b / 16) :: [hexDigit (b % 16)])

/-- `urllib.parse.quote_plus` with `safe=''`. -/
def quote_plus (l : List Char) : List Char :=
  l.flatMap quotePlusChar

/-- `str.replace('+', ' ')` (applied by `parse_qsl` before unquoting). -/
def plusToSpace (l : List Char) : List Char :=
  l.map (fun c => if c = '+' then ' ' else c)

/-- `urllib.parse.unquote_to_bytes` on an ASCII chunk: each `%` followed
by two hex digits becomes that byte, any other character becomes its
own code.  (CPython splits on `%` and falls back to a literal `%` when
the next two characters are not hex; processing left to right with a
three-character lookahead is equivalent.) -/
def unquoteToBytes : List Char → List Nat
  | '%' :: c1 :: c2 :: rest =>
    match hexVal c1, hexVal c2 with
    | some h1, some h2 => (h1 * 16 + h2) :: unquoteToBytes rest
    | _, _ => '%'.toNat :: unquoteToBytes (c1 :: c2 :: rest)
  | c :: rest => c.toNat :: unquoteToBytes rest
  | [] => []

/-- Percent-decode an accumulated (reversed) ASCII run. -/
def unquoteFlush (acc : List Char) : List Char :=
  utf8DecodeReplace (unquoteToBytes acc.reverse)

/-- Worker for `unquote`: gather maximal ASCII runs and decode them;
non-ASCII characters pass through unchanged. -/
def unquoteGo : List Char → List Char → List Char
  | [], acc => unquoteFlush acc
  | c :: cs, acc =>
    if c.toNat < 0x80 then unquoteGo cs (c :: acc)
    else unquoteFlush acc ++ c :: unquoteGo cs []

/-- `urllib.parse.unquote` with `encoding="utf-8", errors="replace"`:
percent-escapes inside ASCII runs are decoded to bytes and the run is
UTF-8-decoded; non-ASCII characters pass through.  (CPython's
early return when the string has no `%` yields the same value.) -/
def unquote (l : List Char) : List Char :=
  unquoteGo l []

/-- The result of `urllib.parse.urlsplit`. -/
structure SplitResult where
  scheme : List Char
  netloc : List Char
  path : List Char
  query : List Char
  fragment : List Char
deriving DecidableEq, Repr

/-- A character allowed after the first in a URL scheme
(`scheme_chars`: letters, digits, `+`, `-`, `.`). -/
def isSchemeChar (c : Char) : Bool :=
  c.isAlpha || c.isDigit || c = '+' || c = '-' || c = '.'

/-- `urlsplit` first strips leading `_WHATWG_C0_CONTROL_OR_SPACE`
characters (code points `0x00`–`0x20`) and then removes
`_UNSAFE_URL_BYTES_TO_REMOVE = "\t\r\n"` everywhere (CPython 3.11). -/
def removeUnsafeBytes (l : List Char) : List Char :=
  (l.dropWhile (fun c => c.toNat ≤ 0x20)).filter
    (fun c => !(c = '\t' || c = '\x0d' || c = '\n'))

/-- Scheme detection in `urlsplit`: before the first `:`, at least one
character, ASCII-alphabetic first character, scheme characters after;
the scheme is lowercased and the remainder is returned.  Any failure
leaves the URL whole with an empty scheme. -/
def parseScheme (url : List Char) : List Char × List Char :=
  match splitFirst ':' url with
  | none => ([], url)
  | some (before, after) =>
    match before with
    | [] => ([], url)
    | c :: rest =>
      if c.isAlpha && rest.all isSchemeChar then
        (toLowerList (c :: rest), after)
      else ([], url)

/-- A netloc delimiter (`_splitnetloc` stops at `/`, `?` or `#`). -/
def isNetlocDelim (c : Char) : Bool :=
  c = '/' || c = '?' || c = '#'

/-- `_splitnetloc` behind the `url[:2] == '//'` guard: the netloc (up
to the first `/`, `?` or `#` after the leading `//`) and the rest of
the post-scheme URL; without `//` the URL passes through whole. -/
def urlsplitNetlocSplit (url2 : List Char) : List Char × List Char :=
  if url2.take 2 = ['/', '/'] then
    ((url2.drop 2).takeWhile (fun c => !isNetlocDelim c),
      (url2.drop 2).dropWhile (fun c => !isNetlocDelim c))
  else ([], url2)

/-- `url.partition('#')` as `urlsplit` uses it: the part before the
first `#` and the part after it (empty when there is no `#`). -/
def urlsplitFragSplit (url3 : List Char) : List Char × List Char :=
  match splitFirst '#' url3 with
  | some p => p
  | none => (url3, [])

/-- `url.partition('?')`, as for the fragment. -/
def urlsplitQuerySplit (url4 : List Char) : List Char × List Char :=
  match splitFirst '?' url4 with
  | some p => p
  | none => (url4, [])

/-- `urllib.parse.urlsplit` with `allow_fragments=True` (the
`ValueError` branches for malformed bracketed hosts and the non-ASCII
netloc check are omitted — Python raises on those instead of
returning). -/
def urlsplit (url0 : List Char) : SplitResult :=
  let url1 := removeUnsafeBytes url0
  let sp := parseScheme url1
  let nl := urlsplitNetlocSplit sp.2
  let fr := urlsplitFragSplit nl.2
  let qu := urlsplitQuerySplit fr.1
  { scheme := sp.1, netloc := nl.1, path := qu.1, query := qu.2
    fragment := fr.2 }

/-- The `uses_netloc` scheme list of CPython 3.11 (the `''` entry is
unreachable in `urlunsplit` behind the `scheme and` truthiness guard). -/
def usesNetloc : List (List Char) :=
  ["ftp", "http", "gopher", "nntp", "telnet", "imap", "wais", "file",
    "mms", "https", "shttp", "snews", "prospero", "rtsp", "rtsps",
    "rtspu", "rsync", "svn", "svn+ssh", "sftp", "nfs", "git", "git+ssh",
    "ws", "wss"].map String.toList

/-- `urllib.parse.urlunsplit` (CPython 3.11):

```python
if netloc or (scheme and scheme in uses_netloc and url[:2] != '//'):
    if url and url[:1] != '/': url = '/' + url
    url = '//' + (netloc or '') + url
if scheme: url = scheme + ':' + url
if query: url = url + '?' + query
if fragment: url = url + '#' + fragment
``` -/
def urlunsplit (p : SplitResult) : List Char :=
  let url1 :=
    if p.netloc ≠ [] ∨
        (p.scheme ≠ [] ∧ p.scheme ∈ usesNetloc ∧
          p.path.take 2 ≠ ['/', '/']) then
      ['/', '/'] ++ p.netloc ++
        (if p.path ≠ [] ∧ p.path.take 1 ≠ ['/'] then '/' :: p.path
         else p.path)
    else p.path
  let url2 := if p.scheme ≠ [] then p.scheme ++ ':' :: url1 else url1
  let url3 := if p.query ≠ [] then url2 ++ '?' :: p.query else url2
  if p.fragment ≠ [] then url3 ++ '#' :: p.fragment else url3

/-- `urllib.parse.parse_qsl(qs, keep_blank_values=True)` with the
default `&` separator: split on `&`, drop empty chunks, split each
chunk at the first `=` (a chunk without `=` keeps a blank value), then
`+`→space and percent-decode names and values. -/
def parse_qsl (qs : List Char) : List (List Char × List Char) :=
  if qs.isEmpty then []
  else
    ((splitChar '&' qs).filter (fun nv => !nv.isEmpty)).map
      (fun nv =>
        match splitFirst '=' nv with
        | some p => (unquote (plusToSpace p.1), unquote (plusToSpace p.2))
        | none => (unquote (plusToSpace nv), []))

/-- `urllib.parse.urlencode(pairs, doseq=True)` on string pairs:
`quote_plus` each side, join with `=` and `&`. -/
def urlencode (pairs : List (List Char × List Char)) : List Char :=
  List.intercalate ['&']
    (pairs.map (fun kv => quote_plus kv.1 ++ '=' :: quote_plus kv.2))

/-- `key.lower().startswith(UTM_PREFIX)` with `UTM_PREFIX = "utm_"`. -/
def isUtmKey (k : List Char) : Bool :=
  (toLowerList k).take 4 = "utm_".toList

/-- `canonicalise_url` from `discovery/url_utils.py`:

```python
def canonicalise_url(url: str) -> str:
    parts = urlsplit(url)
    query_pairs = [(key, value) for key, value in
                   parse_qsl(parts.query, keep_blank_values=True)
                   if not key.lower().startswith(UTM_PREFIX)]
    query = urlencode(query_pairs, doseq=True)
    normalized = parts._replace(query=query, fragment="")
    return urlunsplit(normalized)
``` -/
def canonicalise_url (url : List Char) : List Char :=
  let parts := urlsplit url
  let query_pairs := (parse_qsl parts.query).filter
    (fun kv => !isUtmKey kv.1)
  let query := urlencode query_pairs
  urlunsplit { parts with query := query, fragment := [] }

/-- The extra tracking keys removed by the digest script's
`_canonical_url`. -/
def isTrackingKey (k : List Char) : Bool :=
  toLowerList k = "ref".toList || toLowerList k = "fbclid".toList ||
  toLowerList k = "gclid".toList || toLowerList k = "mc_cid".toList ||
  toLowerList k = "mc_eid".toList

/-- `path.rstrip("/")`. -/
def rstripSlash (l : List Char) : List Char :=
  (l.reverse.dropWhile (fun c => c = '/')).reverse

/-- `_canonical_url` from `scripts/render_digest_llm_compare.py`: empty
stays empty; otherwise split, drop `utm_*` and the named tracking keys,
re-encode the query, strip trailing slashes from the path, lowercase the
netloc, and drop the fragment.  (The `except` branch around `urlsplit`
returns the raw URL; the embedded `urlsplit` is total.) -/
def _canonical_url (url : List Char) : List Char :=
  if url.isEmpty then []
  else
    let parts := urlsplit url
    let query := (parse_qsl parts.query).filter
      (fun kv => !isUtmKey kv.1 && !isTrackingKey kv.1)
    let new_query := urlencode query
    let path := rstripSlash parts.path
    urlunsplit
      { scheme := parts.scheme
        netloc := toLowerList parts.netloc
        path := path
        query := new_query
        fragment := [] }

/-- `str.replace("www.", "")`: remove every (non-overlapping, leftmost)
occurrence of `www.`. -/
def removeWWW : List Char → List Char
  | 'w' :: 'w' :: 'w' :: '.' :: rest => removeWWW rest
  | c :: cs => c :: removeWWW cs
  | [] => []

/-- `_domain` from `scripts/render_digest_llm_compare.py`:
`urlsplit(url).netloc.replace("www.", "")`. -/
def _domain (url : List Char) : List Char :=
  removeWWW (urlsplit url).netloc

/-! ## `difflib.SequenceMatcher.ratio`

`_titles_similar` compares normalised titles with
`SequenceMatcher(None, a, b).ratio()`.  The embedding follows CPython's
`difflib`: `b2j` with the autojunk heuristic (for `len(b) >= 200`,
elements occurring in more than 1% + 1 positions are dropped from
`b2j`), the `find_longest_match` dynamic program with its
equal-element extension loops (the junk-set loops are no-ops since
`isjunk is None`), the recursive matching-blocks total, and
`2*T/(len(a)+len(b))` (with ratio `1.0` for two empty strings). -/

/-- The ascending list of positions of `c` in `b` after the autojunk
deletion of popular elements. -/
def b2jIdxs (b : List Char) (c : Char) : List Nat :=
  let idxs := (b.enum.filter (fun p => p.2 = c)).map (fun p => p.1)
  if b.length ≥ 200 ∧ idxs.length > b.length / 100 + 1 then [] else idxs

/-- `j2len.get(j, 0)` on the association-list row. -/
def j2lenGet (m : List (Nat × Nat)) (j : Nat) : Nat :=
  ((m.find? (fun p => p.1 = j)).map (fun p => p.2)).getD 0

/-- One row of the `find_longest_match` dynamic program: fold over the
positions of `a[i]` in `b` (already window-filtered), building the new
row and updating the best block. -/
def flmInner (j2len : List (Nat × Nat)) (i : Nat) (js : List Nat)
    (best : Nat × Nat × Nat) : List (Nat × Nat) × (Nat × Nat × Nat) :=
  js.foldl
    (fun st j =>
      let k := (if j = 0 then 0 else j2lenGet j2len (j - 1)) + 1
      let best2 :=
        if k > st.2.2.2 then (i + 1 - k, j + 1 - k, k) else st.2
      ((j, k) :: st.1, best2))
    ([], best)

/-- The outer loop of the dynamic program over `i ∈ [alo, ahi)`. -/
def flmLoop (a : List Char) (bj : Char → List Nat) (blo bhi : Nat) :
    List Nat → List (Nat × Nat) → (Nat × Nat × Nat) → Nat × Nat × Nat
  | [], _, best => best
  | i :: is, j2len, best =>
    let js := (bj (a.getD i ' ')).filter (fun j => blo ≤ j ∧ j < bhi)
    let st := flmInner j2len i js best
    flmLoop a bj blo bhi is st.1 st.2

/-- Count matching elements walking left from `(i-1, j-1)` for at most
`steps` steps (the caller bounds `steps` by the window, so the indexing
never escapes it). -/
def matchBack (a b : List Char) (i j : Nat) : Nat → Nat
  | 0 => 0
  | steps + 1 =>
    if a.getD (i - 1) ' ' = b.getD (j - 1) ' ' then
      1 + matchBack a b (i - 1) (j - 1) steps
    else 0

/-- Count matching elements walking right from `(i, j)` for at most
`steps` steps. -/
def matchFwd (a b : List Char) (i j : Nat) : Nat → Nat
  | 0 => 0
  | steps + 1 =>
    if a.getD i ' ' = b.getD j ' ' then 1 + matchFwd a b (i + 1) (j + 1) steps
    else 0

/-- `SequenceMatcher.find_longest_match` on the window
`a[alo:ahi], b[blo:bhi]` (junk-free; the equal-element extension loops
run on both sides). -/
def find_longest_match (a b : List Char) (bj : Char → List Nat)
    (alo ahi blo bhi : Nat) : Nat × Nat × Nat :=
  let dp := flmLoop a bj blo bhi (List.range' alo (ahi - alo)) []
    (alo, blo, 0)
  let eL := matchBack a b dp.1 dp.2.1 (min (dp.1 - alo) (dp.2.1 - blo))
  let besti := dp.1 - eL
  let bestj := dp.2.1 - eL
  let size := dp.2.2 + eL
  let eF := matchFwd a b (besti + size) (bestj + size)
    (min (ahi - (besti + size)) (bhi - (bestj + size)))
  (besti, bestj, size + eF)

/-- Total size of the matching blocks (the sum `get_matching_blocks`
contributes to `ratio`), computed with a fuel bound on the recursion
depth (`ahi - alo` strictly shrinks at every level, so any fuel above
the initial window length is enough). -/
def matchingTotal (a b : List Char) (bj : Char → List Nat) :
    Nat → Nat → Nat → Nat → Nat → Nat
  | 0, _, _, _, _ => 0
  | fuel + 1, alo, ahi, blo, bhi =>
    let m := find_longest_match a b bj alo ahi blo bhi
    if m.2.2 = 0 then 0
    else
      matchingTotal a b bj fuel alo m.1 blo m.2.1 + m.2.2 +
        matchingTotal a b bj fuel (m.1 + m.2.2) ahi (m.2.1 + m.2.2) bhi

/-- `SequenceMatcher(None, a, b).ratio()`. -/
def smRatio (a b : List Char) : ℚ :=
  let t := matchingTotal a b (b2jIdxs b) (a.length + 1) 0 a.length 0
    b.length
  if a.length + b.length = 0 then 1
  else 2 * (t : ℚ) / ((a.length : ℚ) + (b.length : ℚ))

/-! ## `scripts/render_digest_llm_compare.py`: items, dedup, cap

A digest item is a JSON dict; `Item` carries the keys the modelled
functions consult (`id`, `url`, `title`, `excerpt`, `bullets`, `why`),
with `Option` for keys that may be absent where absence matters.  Note
the script's regexes are raw strings with doubled backslashes
(`r"/20\\d{2}/"`, `r"\\s+"`, `r"[^a-z0-9\\s]+"`), so they match literal
backslash-`d`/`s` sequences, not digit/whitespace classes; the
embedding reproduces那 exact semantics. -/

structure Item where
  id : Option (List Char) := none
  url : List Char := []
  title : List Char := []
  excerpt : List Char := []
  bullets : List (List Char) := []
  why : Option (List Char) := none
deriving DecidableEq, Repr

/-- A separator character of the date pattern (`[-_/]`). -/
def isDateSep (c : Char) : Bool :=
  c = '-' || c = '_' || c = '/'

/-- Month alternation `(0[1-9]|1[0-2])`. -/
def monthOk (m1 m2 : Char) : Bool :=
  (m1 = '0' && '1' ≤ m2 && m2 ≤ '9') ||
  (m1 = '1' && (m2 = '0' || m2 = '1' || m2 = '2'))

/-- Day alternation `(0[1-9]|[12]\\d|3[01])` — note `[12]\\d` requires a
literal backslash then `d`. -/
def dayOkAt : List Char → Bool
  | d1 :: d2 :: rest =>
    (d1 = '0' && '1' ≤ d2 && d2 ≤ '9') ||
    ((d1 = '1' || d1 = '2') && d2 = '\\' && rest.headD ' ' = 'd') ||
    (d1 = '3' && (d2 = '0' || d2 = '1'))
  | _ => false

/-- The second date alternative
`[-_/](20\\d{2})[-_/](0[1-9]|1[0-2])[-_/](0[1-9]|[12]\\d|3[01])`
anchored at the head of the list. -/
def dateAlt2At : List Char → Bool
  | a :: '2' :: '0' :: '\\' :: 'd' :: 'd' :: b :: m1 :: m2 :: c :: rest =>
    isDateSep a && isDateSep b && monthOk m1 m2 && isDateSep c &&
      dayOkAt rest
  | _ => false

/-- Does `p` hold at some suffix (models `re.search`)? -/
def anyTail (p : List Char → Bool) : List Char → Bool
  | [] => p []
  | c :: cs => p (c :: cs) || anyTail p cs

/-- Substring test. -/
def containsSub (pat : List Char) (l : List Char) : Bool :=
  anyTail (fun t => pat.isPrefixOf t) l

/-- The date-in-URL bonus of `_article_score`: the regex matches either
the literal `/20\dd/` or the `dateAlt2At` shape somewhere in the
lowercased URL. -/
def dateBonus (lower_url : List Char) : Bool :=
  containsSub "/20\\dd/".toList lower_url || anyTail dateAlt2At lower_url

/-- Worker for `re.split(r"\\s+", s)`: split on each literal backslash
followed by a maximal nonempty run of `s` characters.  Every step
consumes at least one character and one unit of fuel (the exhausted
branch is unreachable from `splitBs`). -/
def splitBsGo : Nat → List Char → List Char → List (List Char)
  | _, [], acc => [acc.reverse]
  | 0, _, acc => [acc.reverse]
  | fuel + 1, '\\' :: 's' :: rest, acc =>
    acc.reverse :: splitBsGo fuel (rest.dropWhile (fun c => c = 's')) []
  | fuel + 1, c :: cs, acc => splitBsGo fuel cs (c :: acc)

/-- `re.split(r"\\s+", s)`. -/
def splitBs (l : List Char) : List (List Char) :=
  splitBsGo (l.length + 1) l []

/-- `_article_score(url, title, excerpt)`: date-in-URL bonus, 6–18
"words" in the title (split on the literal `\s+` pattern), excerpt of at
least 400 characters, and a news-like path segment. -/
def _article_score (url title excerpt : List Char) : Nat :=
  let lower_url := toLowerList url
  let s1 := if dateBonus lower_url then 1 else 0
  let words := (splitBs (pyStrip title)).filter (fun w => !w.isEmpty)
  let s2 := if 6 ≤ words.length ∧ words.length ≤ 18 then 1 else 0
  let s3 := if 400 ≤ excerpt.length then 1 else 0
  let s4 :=
    if containsSub "/news/".toList lower_url ||
        containsSub "/press".toList lower_url ||
        containsSub "/release".toList lower_url ||
        containsSub "/insights/".toList lower_url then 1 else 0
  s1 + s2 + s3 + s4

/-- `_item_quality_score`: article score, plus one per non-blank bullet,
plus one for a non-blank `why`. -/
def _item_quality_score (item : Item) : Nat :=
  _article_score item.url item.title item.excerpt +
    (item.bullets.filter (fun b => !(pyStrip b).isEmpty)).length +
    (match item.why with
     | some w => if (pyStrip w).isEmpty then 0 else 1
     | none => 0)

/-- `_select_best(a, b)`: the newcomer `b` only wins strictly. -/
def _select_best (a b : Item) : Item :=
  if _item_quality_score a < _item_quality_score b then b else a

/-- `re.sub(r"[^a-z0-9\\s]+", " ", s)`: each maximal run of characters
outside `a–z`, `0–9`, backslash is replaced by one space (the `s` in
the class is redundant inside `a–z`). -/
def normSub1 : List Char → Bool → List Char
  | [], _ => []
  | c :: cs, inRun =>
    if ('a' ≤ c ∧ c ≤ 'z') ∨ ('0' ≤ c ∧ c ≤ '9') ∨ c = '\\' then
      c :: normSub1 cs false
    else if inRun then normSub1 cs true
    else ' ' :: normSub1 cs true

/-- `_normalize_title`: lowercase, replace punctuation runs by spaces,
apply `re.sub(r"\\s+", " ", ·)` (the literal backslash-`s` pattern), and
strip. -/
def _normalize_title (title : List Char) : List Char :=
  pyStrip (List.intercalate [' ']
    (splitBs (normSub1 (toLowerList title) false)))

/-- `_titles_similar`: both normalised titles nonempty and
`SequenceMatcher` ratio at least `0.92`. -/
def _titles_similar (a b : Item) : Bool :=
  let an := _normalize_title a.title
  let bn := _normalize_title b.title
  if an.isEmpty || bn.isEmpty then false
  else 92 / 100 ≤ smRatio an bn

/-- `by_url[k]` lookup. -/
def byUrlFind (m : List (List Char × Item)) (k : List Char) :
    Option Item :=
  (m.find? (fun p => p.1 = k)).map (fun p => p.2)

/-- `by_url[k] = v` (replace an existing binding or append). -/
def byUrlSet (m : List (List Char × Item)) (k : List Char) (v : Item) :
    List (List Char × Item) :=
  if (m.find? (fun p => p.1 = k)).isSome then
    m.map (fun p => if p.1 = k then (k, v) else p)
  else m ++ [(k, v)]

/-- `deduped[deduped.index(existing)] = best`: replace the first
element equal to `existing`. -/
def replaceFirst : List Item → Item → Item → List Item
  | [], _, _ => []
  | x :: xs, target, repl =>
    if x = target then repl :: xs else x :: replaceFirst xs target repl

/-- The first loop of `_dedupe_items`: merge by canonical URL into
`by_url`, else merge into the first title-similar entry of `deduped`,
else append (registering a nonempty canonical URL). -/
def dedupeGo : List Item → List (List Char × Item) → List Item →
    List (List Char × Item) × List Item
  | [], by_url, deduped => (by_url, deduped)
  | item :: rest, by_url, deduped =>
    let norm_url := _canonical_url item.url
    if !norm_url.isEmpty ∧ (byUrlFind by_url norm_url).isSome then
      dedupeGo rest
        (byUrlSet by_url norm_url
          (_select_best ((byUrlFind by_url norm_url).getD item) item))
        deduped
    else
      match deduped.find? (fun existing => _titles_similar existing item) with
      | some existing =>
        dedupeGo rest by_url
          (replaceFirst deduped existing (_select_best existing item))
      | none =>
        dedupeGo rest
          (if !norm_url.isEmpty then byUrlSet by_url norm_url item
           else by_url)
          (deduped ++ [item])

/-- The second loop of `_dedupe_items`: reflect URL-based best selection
and deduplicate by `item.get("id")` (absent ids collide on `None`). -/
def dedupeMergeGo (by_url : List (List Char × Item)) :
    List Item → List (Option (List Char)) → List Item
  | [], _ => []
  | item :: rest, seen =>
    let norm_url := _canonical_url item.url
    let item2 :=
      if !norm_url.isEmpty then (byUrlFind by_url norm_url).getD item
      else item
    if seen.contains item2.id then dedupeMergeGo by_url rest seen
    else item2 :: dedupeMergeGo by_url rest (item2.id :: seen)

/-- `_dedupe_items` from `scripts/render_digest_llm_compare.py`. -/
def _dedupe_items (items : List Item) : List Item :=
  let st := dedupeGo items [] []
  dedupeMergeGo st.1 st.2 []

/-- `counts.setdefault(domain, 0)` lookup. -/
def countGet (m : List (List Char × Nat)) (k : List Char) : Nat :=
  ((m.find? (fun p => p.1 = k)).map (fun p => p.2)).getD 0

/-- Store an updated per-domain count. -/
def countSet (m : List (List Char × Nat)) (k : List Char) (v : Nat) :
    List (List Char × Nat) :=
  if (m.find? (fun p => p.1 = k)).isSome then
    m.map (fun p => if p.1 = k then (k, v) else p)
  else m ++ [(k, v)]

/-- The loop of `_cap_per_domain`: items without a parseable domain are
skipped unconditionally; otherwise at most `max_per_domain` items are
kept per domain, first come first kept. -/
def capGo (max_per_domain : Int) :
    List Item → List (List Char × Nat) → List Item
  | [], _ => []
  | item :: rest, counts =>
    let domain := _domain item.url
    if domain.isEmpty then capGo max_per_domain rest counts
    else
      let cnt := countGet counts domain
      if max_per_domain ≤ (cnt : Int) then capGo max_per_domain rest counts
      else
        item :: capGo max_per_domain rest (countSet counts domain (cnt + 1))

/-- `_cap_per_domain` from `scripts/render_digest_llm_compare.py`. -/
def _cap_per_domain (items : List Item) (max_per_domain : Int) :
    List Item :=
  capGo max_per_domain items []

/-- An item whose URL has no parseable domain. -/
def itemNoDomain : Item :=
  { id := some "n".toList, url := "notaurl".toList }

/-- A plain `domain.com` item (quality score 0). -/
def c5ItemPlain : Item :=
  { id := some "p".toList, url := "https://domain.com/a".toList }

/-- A `domain.com` item with a rationale (quality score 1). -/
def c5ItemWhy : Item :=
  { id := some "w".toList, url := "https://domain.com/a".toList
    why := some "matters".toList }

/-- Ten `domain.com` items: the lowest-quality one first. -/
def c5Items : List Item :=
  c5ItemPlain :: List.replicate 9 c5ItemWhy

/-- C4 counterexample items: `iAplain` and `iBwhy` have similar titles
(ratio 12/13 ≈ 0.923), `iBwhy` and `iCplain` have similar titles, but
`iAplain` and `iCplain` do not (11/13 ≈ 0.846); `iBwhy` carries a
rationale, so it wins `_select_best` against `iAplain`. -/
def iAplain : Item :=
  { id := some "a".toList, url := "https://a.com/1".toList
    title := "abcdefghijklm".toList }

/-- See `iAplain`. -/
def iBwhy : Item :=
  { id := some "b".toList, url := "https://b.com/1".toList
    title := "zbcdefghijklm".toList, why := some "w".toList }

/-- See `iAplain`. -/
def iCplain : Item :=
  { id := some "c".toList, url := "https://c.com/1".toList
    title := "zbcdefghijkly".toList }

/-! ## Theorems -/

/-- C2: if the current prefs' `locked_until` is strictly after `now`,
`select_method_prefs` returns the current prefs unchanged (the very same
record: primary, fallbacks, confidence, timestamps and flags), whatever
the stats and the other parameters are. -/
theorem select_method_prefs_locked_returns_current
    (domain : String) (stats : List MethodStats) (cur : MethodPrefs)
    (now : Int) (min_attempts cooldown_hours : Int) (pm msr : ℚ) (t : Int)
    (hlock : cur.locked_until = some t) (hnow : now < t) :
    select_method_prefs domain stats (some cur) now min_attempts
      cooldown_hours pm msr = some cur := by
  have hact : lockActive cur now = true := by
    unfold lockActive
    rw [hlock]
    simpa using hnow
  unfold select_method_prefs
  cases pySortRevBy (stats.filter fun s => min_attempts ≤ s.attempts) with
  | nil => rfl
  | cons best rest => simp [hact]

unseal Rat.mul Rat.inv Rat.add Rat.sub in
/-- C2 witness: with a lock 23 hours in the future and stats making the
other method clearly better, the current prefs come back unchanged. -/
theorem select_method_prefs_locked_witness :
    curPrefsLocked.locked_until = some 82800 ∧ (0 : Int) < 82800 ∧
    select_method_prefs "example.com"
      [statA05, { method := "b", attempts := 5, successes := 5 }]
      (some curPrefsLocked) 0 3 24 (3/20) (2/5) = some curPrefsLocked :=
  ⟨rfl, by decide,
    select_method_prefs_locked_returns_current "example.com"
      [statA05, { method := "b", attempts := 5, successes := 5 }]
      curPrefsLocked 0 3 24 (3/20) (2/5) 82800 rfl (by decide)⟩

/-- C1: with current prefs present, lock expired, and the current primary
among the ranked eligible methods, the selected primary is the
best-ranked method exactly when it differs from the current primary and
its success rate reaches the current primary's rate plus
`promote_margin`; otherwise the current primary is kept. -/
theorem select_method_prefs_promote_iff
    (domain : String) (stats : List MethodStats) (cur : MethodPrefs)
    (now : Int) (min_attempts cooldown_hours : Int) (pm msr : ℚ)
    (best cstat : MethodStats) (rest : List MethodStats)
    (hsort : pySortRevBy (stats.filter fun s => min_attempts ≤ s.attempts) =
      best :: rest)
    (hlock : lockActive cur now = false)
    (hfind : (best :: rest).find? (fun s => s.method == cur.primary_method) =
      some cstat) :
    ∃ p, select_method_prefs domain stats (some cur) now min_attempts
        cooldown_hours pm msr = some p ∧
      p.primary_method =
        (if best.method ≠ cur.primary_method ∧
            cstat.success_rate + pm ≤ best.success_rate
         then best.method else cur.primary_method) := by
  have hcm : cstat.method = cur.primary_method :=
    eq_of_beq (by simpa using List.find?_some hfind)
  unfold select_method_prefs
  rw [hsort]
  simp only [hlock, Bool.false_eq_true, if_false, hfind]
  by_cases hc : best.method ≠ cur.primary_method ∧
      cstat.success_rate + pm ≤ best.success_rate
  · exact ⟨_, by rw [if_pos hc], by rw [if_pos hc]; rfl⟩
  · exact ⟨_, by rw [if_neg hc], by rw [if_neg hc]; simpa [_build_prefs] using hcm⟩

unseal Rat.mul Rat.inv Rat.add Rat.sub in
/-- C1 witness: the spec's hysteresis scenario.  Current primary `a`
(rate 0.5, 5 attempts); candidate `b` at rate 0.6 is not promoted
(margin 0.1 < 0.15); candidate `b` at rate 0.7 is promoted. -/
theorem select_method_prefs_promote_iff_witness :
    (∃ p, select_method_prefs "d" [statA05, statB06] (some curPrefsA) 100
        3 24 (3/20) (2/5) = some p ∧ p.primary_method = "a") ∧
    (∃ p, select_method_prefs "d" [statA05, statB07] (some curPrefsA) 100
        3 24 (3/20) (2/5) = some p ∧ p.primary_method = "b") := by
  constructor
  · obtain ⟨p, hp, hprim⟩ :=
      select_method_prefs_promote_iff "d" [statA05, statB06] curPrefsA 100
        3 24 (3/20) (2/5) statB06 statA05 [statA05] (by decide) (by decide)
        (by decide)
    exact ⟨p, hp, by rw [hprim]; decide⟩
  · obtain ⟨p, hp, hprim⟩ :=
      select_method_prefs_promote_iff "d" [statA05, statB07] curPrefsA 100
        3 24 (3/20) (2/5) statB07 statA05 [statA05] (by decide) (by decide)
        (by decide)
    exact ⟨p, hp, by rw [hprim]; decide⟩

unseal Rat.mul Rat.inv Rat.add Rat.sub in
/-- C7 counterexample: in the re-affirm case the returned prefs do *not*
carry the current `locked_until`.  With current prefs locked until time
`5` (expired, now = 10) and stats that re-affirm primary `a`, the result
has `locked_until = none` while the current prefs had `some 5`. -/
theorem select_method_prefs_reaffirm_counterexample :
    (select_method_prefs "d" [statA05, statB06] (some curPrefsExpired) 10
        3 24 (3/20) (2/5)).map MethodPrefs.locked_until = some none ∧
    curPrefsExpired.locked_until = some 5 := by
  constructor
  · decide
  · rfl

/-- C7 amended: in the re-affirm case (current prefs exist, lock expired,
current primary still ranked, best does not beat it by the margin) the
result keeps the current primary, refreshes `fallback_methods` to the
latest ranking, carries `last_changed_at` over from the current prefs
when it is set (else `now`), and clears `locked_until` to `none` (no new
cooldown; an expired lock timestamp is not carried over). -/
theorem select_method_prefs_reaffirm
    (domain : String) (stats : List MethodStats) (cur : MethodPrefs)
    (now : Int) (min_attempts cooldown_hours : Int) (pm msr : ℚ)
    (best cstat : MethodStats) (rest : List MethodStats)
    (hsort : pySortRevBy (stats.filter fun s => min_attempts ≤ s.attempts) =
      best :: rest)
    (hlock : lockActive cur now = false)
    (hfind : (best :: rest).find? (fun s => s.method == cur.primary_method) =
      some cstat)
    (hcond : ¬(best.method ≠ cur.primary_method ∧
      cstat.success_rate + pm ≤ best.success_rate)) :
    ∃ p, select_method_prefs domain stats (some cur) now min_attempts
        cooldown_hours pm msr = some p ∧
      p.primary_method = cur.primary_method ∧
      p.fallback_methods = ((best :: rest).filter
        (fun s => s.method ≠ cstat.method)).map (fun s => s.method) ∧
      p.last_changed_at = some (cur.last_changed_at.getD now) ∧
      p.locked_until = none := by
  have hcm : cstat.method = cur.primary_method :=
    eq_of_beq (by simpa using List.find?_some hfind)
  unfold select_method_prefs
  rw [hsort]
  simp only [hlock, Bool.false_eq_true, if_false, hfind, if_neg hcond]
  exact ⟨_, rfl, by simpa [_build_prefs] using hcm, rfl, rfl, rfl⟩

unseal Rat.mul Rat.inv Rat.add Rat.sub in
/-- C7 witness: concrete re-affirm run.  Current prefs changed at `3`
with lock expired at `5`; the result keeps primary `a`, refreshes the
fallbacks to `["b"]`, keeps `last_changed_at = 3` and has no lock. -/
theorem select_method_prefs_reaffirm_witness :
    ∃ p, select_method_prefs "d" [statA05, statB06] (some curPrefsExpired) 10
        3 24 (3/20) (2/5) = some p ∧
      p.primary_method = curPrefsExpired.primary_method ∧
      p.fallback_methods = (([statB06, statA05]).filter
        (fun s => s.method ≠ statA05.method)).map (fun s => s.method) ∧
      p.last_changed_at = some (curPrefsExpired.last_changed_at.getD 10) ∧
      p.locked_until = none :=
  select_method_prefs_reaffirm "d" [statA05, statB06] curPrefsExpired 10
    3 24 (3/20) (2/5) statB06 statA05 [statA05] (by decide) (by decide)
    (by decide) (by decide)

/-- The score computed by `evaluate_text` on nonempty stripped text:
`min(char_count / min_chars, word_count / min_words)` (counts taken on
the stripped text, as in the source). -/
def heuristicScore (text : List Char) (th : HeuristicThresholds) : ℚ :=
  min (((((pyStrip text).length : Int)) : ℚ) / ((th.min_chars : Int) : ℚ))
    (((((pySplit (pyStrip text)).length : Int)) : ℚ) / ((th.min_words : Int) : ℚ))

/-- Unfolding equation for `evaluate_text` in terms of `heuristicScore`. -/
theorem evaluate_text_eq (text : List Char) (th : HeuristicThresholds) :
    evaluate_text text th =
      if (pyStrip text).isEmpty then ("TOO_SHORT", (0 : ℚ))
      else if ((pyStrip text).length : Int) < th.min_chars ∨
          ((pySplit (pyStrip text)).length : Int) < th.min_words then
        ("TOO_SHORT", max (heuristicScore text th) 0)
      else ("ACCEPT", heuristicScore text th) := rfl

/-- C6: the text acceptance heuristic.  With positive thresholds:
empty/whitespace-only text yields `(TOO_SHORT, 0)`; text below either
threshold yields `TOO_SHORT` with score `min(chars/min_chars,
words/min_words) < 1`; otherwise `ACCEPT` with the same score, `≥ 1`.
Exactly-at-threshold text is accepted; one character or one word short
is rejected. -/
theorem evaluate_text_spec (text : List Char) (th : HeuristicThresholds)
    (hmc : 0 < th.min_chars) (hmw : 0 < th.min_words) :
    ((pyStrip text).isEmpty = true →
      evaluate_text text th = ("TOO_SHORT", 0)) ∧
    ((pyStrip text).isEmpty = false →
      ((pyStrip text).length : Int) < th.min_chars ∨
        ((pySplit (pyStrip text)).length : Int) < th.min_words →
      evaluate_text text th = ("TOO_SHORT", heuristicScore text th) ∧
      heuristicScore text th < 1) ∧
    ((pyStrip text).isEmpty = false →
      th.min_chars ≤ ((pyStrip text).length : Int) →
      th.min_words ≤ ((pySplit (pyStrip text)).length : Int) →
      evaluate_text text th = ("ACCEPT", heuristicScore text th) ∧
      1 ≤ heuristicScore text th) ∧
    (((pyStrip text).length : Int) = th.min_chars →
      ((pySplit (pyStrip text)).length : Int) = th.min_words →
      (evaluate_text text th).1 = "ACCEPT") ∧
    (((pyStrip text).length : Int) = th.min_chars - 1 →
      (evaluate_text text th).1 = "TOO_SHORT") ∧
    (((pySplit (pyStrip text)).length : Int) = th.min_words - 1 →
      (evaluate_text text th).1 = "TOO_SHORT") := by
  have hmcq : (0 : ℚ) < ((th.min_chars : Int) : ℚ) := by exact_mod_cast hmc
  have hmwq : (0 : ℚ) < ((th.min_words : Int) : ℚ) := by exact_mod_cast hmw
  have hsc0 : (0 : ℚ) ≤ heuristicScore text th := by
    apply le_min
    · apply div_nonneg _ hmcq.le
      positivity
    · apply div_nonneg _ hmwq.le
      positivity
  have hshort : (pyStrip text).isEmpty = false →
      (((pyStrip text).length : Int) < th.min_chars ∨
        ((pySplit (pyStrip text)).length : Int) < th.min_words) →
      evaluate_text text th = ("TOO_SHORT", heuristicScore text th) ∧
      heuristicScore text th < 1 := by
    intro hne hlt
    constructor
    · rw [evaluate_text_eq]
      simp only [hne, Bool.false_eq_true, if_false, if_pos hlt,
        max_eq_left hsc0]
    · rcases hlt with hlt | hlt
      · apply min_lt_of_left_lt
        rw [div_lt_one hmcq]
        exact_mod_cast hlt
      · apply min_lt_of_right_lt
        rw [div_lt_one hmwq]
        exact_mod_cast hlt
  have haccept : (pyStrip text).isEmpty = false →
      th.min_chars ≤ ((pyStrip text).length : Int) →
      th.min_words ≤ ((pySplit (pyStrip text)).length : Int) →
      evaluate_text text th = ("ACCEPT", heuristicScore text th) ∧
      1 ≤ heuristicScore text th := by
    intro hne hc hw
    have hnlt : ¬(((pyStrip text).length : Int) < th.min_chars ∨
        ((pySplit (pyStrip text)).length : Int) < th.min_words) := by
      push_neg
      exact ⟨hc, hw⟩
    constructor
    · rw [evaluate_text_eq]
      simp only [hne, Bool.false_eq_true, if_false, if_neg hnlt]
    · apply le_min
      · rw [one_le_div hmcq]
        exact_mod_cast hc
      · rw [one_le_div hmwq]
        exact_mod_cast hw
  refine ⟨?_, hshort, haccept, ?_, ?_, ?_⟩
  · intro h
    rw [evaluate_text_eq]
    simp [h]
  · intro h1 h2
    have hne : (pyStrip text).isEmpty = false := by
      cases htt : (pyStrip text).isEmpty with
      | false => rfl
      | true =>
        exfalso
        rw [List.isEmpty_iff] at htt
        rw [htt] at h1
        simp only [List.length_nil, Int.natCast_zero] at h1
        omega
    rw [(haccept hne h1.ge h2.ge).1]
  · intro h1
    cases htt : (pyStrip text).isEmpty with
    | true =>
      rw [evaluate_text_eq]
      simp [htt]
    | false =>
      rw [(hshort htt (Or.inl (by omega))).1]
  · intro h1
    cases htt : (pyStrip text).isEmpty with
    | true =>
      rw [evaluate_text_eq]
      simp [htt]
    | false =>
      rw [(hshort htt (Or.inr (by omega))).1]

unseal Rat.mul Rat.inv Rat.add Rat.sub in
/-- C6 witness: with thresholds `{min_chars := 5, min_words := 2}`,
`"ab cd"` (exactly 5 characters, 2 words) is accepted with score `1`,
`"a cd"` (one character short) and `"abcde"` (one word short) are
rejected, and `"   "` scores `(TOO_SHORT, 0)`. -/
theorem evaluate_text_spec_witness :
    evaluate_text "ab cd".toList ⟨5, 2⟩ = ("ACCEPT", 1) ∧
    (evaluate_text "a cd".toList ⟨5, 2⟩).1 = "TOO_SHORT" ∧
    (evaluate_text "abcde".toList ⟨5, 2⟩).1 = "TOO_SHORT" ∧
    evaluate_text "   ".toList ⟨5, 2⟩ = ("TOO_SHORT", 0) := by
  have h1 := evaluate_text_spec "ab cd".toList ⟨5, 2⟩ (by decide) (by decide)
  have h2 := evaluate_text_spec "a cd".toList ⟨5, 2⟩ (by decide) (by decide)
  have h3 := evaluate_text_spec "abcde".toList ⟨5, 2⟩ (by decide) (by decide)
  have h4 := evaluate_text_spec "   ".toList ⟨5, 2⟩ (by decide) (by decide)
  refine ⟨?_, ?_, ?_, ?_⟩
  · rw [(h1.2.2.1 (by decide) (by decide) (by decide)).1]
    have hs : heuristicScore "ab cd".toList ⟨5, 2⟩ = 1 := by decide
    rw [hs]
  · exact h2.2.2.2.2.1 (by decide)
  · exact h3.2.2.2.2.2 (by decide)
  · exact h4.1 (by decide)

set_option maxRecDepth 10000 in
/-- C3 counterexample: `ExtractionEngine.run` *does* propagate an
exception raised by an extractor's `extract` (the loop has no handler).
With a raising extractor first and an extractor producing acceptable
text second, the run raises `"boom"` and yields no `ArticleRecord`,
although the second extractor alone would have produced one. -/
theorem engineRun_exception_counterexample :
    engineRun [raisingExtractor, goodExtractor] exCandidate [] =
      .error "boom" ∧
    engineOutcomeMethod
      (engineRun [raisingExtractor, goodExtractor] exCandidate []) = none ∧
    engineOutcomeMethod (engineRun [goodExtractor] exCandidate []) =
      some "good" := by
  refine ⟨rfl, rfl, ?_⟩
  rfl

/-- C3 amended: an extractor that *returns* a failed attempt (a result
whose cleaned text is not `ACCEPT`ed by the heuristic, e.g.
`success=False` with empty text) is skipped and the engine continues
with the next extractor in order, so a later extractor can still yield
an `ArticleRecord`; but an extractor whose `extract` *raises* propagates
the exception out of `run`. -/
theorem engineRun_failed_result_continues (e : Extractor)
    (rest : List Extractor) (c : Candidate) (html : List Char)
    (r : ExtractionResult) (hext : e.extract html = .ok r)
    (hfail : (evaluate_text (removeNulls (r.text.getD []))
      defaultThresholds).1 ≠ "ACCEPT") :
    engineRun (e :: rest) c html = engineRun rest c html := by
  simp only [engineRun, hext]
  rw [if_pos hfail]

set_option maxRecDepth 10000 in
/-- C3 witness: a `success=False`, empty-text extractor is skipped and
the following good extractor produces the article. -/
theorem engineRun_failed_result_continues_witness :
    engineRun [shortExtractor, goodExtractor] exCandidate [] =
      engineRun [goodExtractor] exCandidate [] ∧
    engineOutcomeMethod (engineRun [goodExtractor] exCandidate []) =
      some "good" := by
  constructor
  · exact engineRun_failed_result_continues shortExtractor [goodExtractor]
      exCandidate [] _ rfl (by decide)
  · rfl

/-- C9: for a candidate at the LLM gate, a stage call that raises never
rejects the candidate or aborts the run — a `DigestItem` is still built
from the remaining data — and the item list is empty exactly when the
relevance stage returned a parsed response with `relevant = False`. -/
theorem articleLlmItems_spec (rc cc sc : Except String StageResult)
    (topic0 : List Char) (score0 : Option ℚ) (st : Option (List Char))
    (raw_text : List Char) (aTitle cTitle : Option (List Char))
    (url : List Char) (w0 : List String) :
    ((articleLlmItems rc cc sc topic0 score0 st raw_text aTitle cTitle
        url w0).1 = [] ↔ relevanceRejected rc = true) ∧
    (relevanceRejected rc = false →
      (articleLlmItems rc cc sc topic0 score0 st raw_text aTitle cTitle
        url w0).1.length = 1) := by
  cases rc with
  | error e => simp [articleLlmItems, _run_llm_stage, relevanceRejected]
  | ok r =>
    cases h : (r.parsed.relevant == some false) with
    | true => simp [articleLlmItems, _run_llm_stage, relevanceRejected, h]
    | false => simp [articleLlmItems, _run_llm_stage, relevanceRejected, h]

/-- C9 witness: with all three LLM calls raising, one item is still
produced; with a successful relevance call parsing `relevant = False`,
the candidate is rejected. -/
theorem articleLlmItems_spec_witness :
    (articleLlmItems (.error "timeout") (.error "x") (.error "y")
      "General".toList none none "Body text.".toList none none
      "https://e.com/a".toList []).1.length = 1 ∧
    (articleLlmItems (.ok { parsed := { relevant := some false } })
      (.ok {}) (.ok {}) "General".toList none none "Body text.".toList
      none none "https://e.com/a".toList []).1 = [] := by
  constructor
  · exact (articleLlmItems_spec (.error "timeout") (.error "x") (.error "y")
      "General".toList none none "Body text.".toList none none
      "https://e.com/a".toList []).2 (by decide)
  · exact (articleLlmItems_spec (.ok { parsed := { relevant := some false } })
      (.ok {}) (.ok {}) "General".toList none none "Body text.".toList
      none none "https://e.com/a".toList []).1.mpr (by decide)

/-- Helper for C10: the cap loop ignores items without a parseable
domain, whatever the counts state. -/
theorem capGo_filter_domain (m : Int) (items : List Item) :
    ∀ counts, capGo m items counts =
      capGo m (items.filter (fun i => !(_domain i.url).isEmpty)) counts := by
  induction items with
  | nil => intro counts; rfl
  | cons item rest ih =>
    intro counts
    cases hd : (_domain item.url).isEmpty with
    | true =>
      simp only [capGo, hd, if_true, List.filter_cons, hd, Bool.not_true]
      rw [if_neg (by simp)]
      exact ih counts
    | false =>
      simp only [List.filter_cons, hd, Bool.not_false]
      rw [if_pos trivial]
      simp only [capGo, hd, Bool.false_eq_true, if_false]
      by_cases hc : m ≤ (countGet counts (_domain item.url) : Int)
      · rw [if_pos hc, if_pos hc]
        exact ih counts
      · rw [if_neg hc, if_neg hc, ih]

/-- Helper for C10: every member of the cap output has a parseable
domain. -/
theorem capGo_mem_domain (m : Int) (items : List Item) :
    ∀ counts x, x ∈ capGo m items counts →
      (_domain x.url).isEmpty = false := by
  induction items with
  | nil => intro counts x hx; simp [capGo] at hx
  | cons item rest ih =>
    intro counts x hx
    cases hd : (_domain item.url).isEmpty with
    | true =>
      simp only [capGo, hd, if_true] at hx
      exact ih counts x hx
    | false =>
      simp only [capGo, hd, Bool.false_eq_true, if_false] at hx
      by_cases hc : m ≤ (countGet counts (_domain item.url) : Int)
      · rw [if_pos hc] at hx
        exact ih _ x hx
      · rw [if_neg hc] at hx
        rcases List.mem_cons.mp hx with hx | hx
        · subst hx
          exact hd
        · exact ih _ x hx

/-- C10: the per-domain cap step drops every item whose URL has no
parseable (nonempty) domain — unconditionally, even when no cap is
exceeded — and so no such item appears in its output. -/
theorem cap_per_domain_drops_unparseable (items : List Item) (m : Int) :
    _cap_per_domain items m =
      _cap_per_domain (items.filter (fun i => !(_domain i.url).isEmpty)) m ∧
    ∀ x ∈ _cap_per_domain items m, (_domain x.url).isEmpty = false := by
  exact ⟨capGo_filter_domain m items [],
    fun x hx => capGo_mem_domain m items [] x hx⟩

set_option maxRecDepth 10000 in
/-- C10 witness: an item with URL `notaurl` is dropped even though the
cap (5) is far from exceeded, and the kept item has a real domain. -/
theorem cap_per_domain_drops_unparseable_witness :
    _cap_per_domain [itemNoDomain, c5ItemPlain] 5 =
      _cap_per_domain
        ([itemNoDomain, c5ItemPlain].filter
          (fun i => !(_domain i.url).isEmpty)) 5 ∧
    (_domain c5ItemPlain.url).isEmpty = false ∧
    _cap_per_domain [itemNoDomain, c5ItemPlain] 5 = [c5ItemPlain] :=
  ⟨(cap_per_domain_drops_unparseable [itemNoDomain, c5ItemPlain] 5).1,
    (cap_per_domain_drops_unparseable [itemNoDomain, c5ItemPlain] 5).2
      c5ItemPlain (by decide),
    by decide⟩

set_option maxRecDepth 100000 in
/-- C5 counterexample: ten `domain.com` items with cap 5.  Exactly five
survive, but they are the *first* five in list order, not the five of
highest quality: the kept `c5ItemPlain` has a strictly lower quality
score than the dropped copies of `c5ItemWhy`. -/
theorem cap_per_domain_quality_counterexample :
    c5Items.length = 10 ∧
    c5Items.all (fun i => _domain i.url = "domain.com".toList) = true ∧
    _cap_per_domain c5Items 5 =
      c5ItemPlain :: List.replicate 4 c5ItemWhy ∧
    _item_quality_score c5ItemPlain < _item_quality_score c5ItemWhy := by
  refine ⟨by decide, by decide, by decide, by decide⟩

/-- Helper for C5: if the cap is not positive, nothing is kept. -/
theorem capGo_nonpos (m : Int) (hm : m ≤ 0) (items : List Item) :
    ∀ counts, capGo m items counts = [] := by
  induction items with
  | nil => intro counts; rfl
  | cons item rest ih =>
    intro counts
    cases hd : (_domain item.url).isEmpty with
    | true =>
      simp only [capGo, hd, if_true]
      exact ih _
    | false =>
      simp only [capGo, hd, Bool.false_eq_true, if_false]
      rw [if_pos (by omega)]
      exact ih _

/-- Helper for C5: the cap loop on a single-domain list with the count
already at `k` keeps the next `(m - k).toNat` items. -/
theorem capGo_single_domain (m : Int) (d : List Char) (hd : d ≠ [])
    (items : List Item) :
    ∀ k, (∀ i ∈ items, _domain i.url = d) →
      capGo m items [(d, k)] = items.take (m - (k : Int)).toNat := by
  have hde : d.isEmpty = false := List.isEmpty_eq_false.mpr hd
  induction items with
  | nil => intro k _; simp [capGo]
  | cons item rest ih =>
    intro k hall
    have hdom : _domain item.url = d := hall item (List.mem_cons_self _ _)
    have hget : countGet [(d, k)] d = k := by
      simp [countGet, List.find?]
    simp only [capGo, hdom, hde, Bool.false_eq_true, if_false, hget]
    by_cases hc : m ≤ (k : Int)
    · rw [if_pos hc]
      rw [ih k (fun i hi => hall i (List.mem_cons_of_mem _ hi))]
      have h0 : (m - (k : Int)).toNat = 0 := by omega
      rw [h0]
      simp
    · rw [if_neg hc]
      have hset : countSet [(d, k)] d (k + 1) = [(d, k + 1)] := by
        simp [countSet, List.find?]
      rw [hset, ih (k + 1) (fun i hi => hall i (List.mem_cons_of_mem _ hi))]
      have harith : (m - (k : Int)).toNat =
          (m - ((k : Int) + 1)).toNat + 1 := by omega
      rw [show ((k : Int) + 1) = (((k + 1 : Nat)) : Int) by push_cast; ring] at harith
      rw [harith]
      simp [List.take_succ_cons]

/-- C5 amended: on a list of items that all resolve to one (nonempty)
domain, the per-domain cap keeps exactly the first `max_per_domain`
items in list order (first come, first kept) — the upstream order is
`_order_items`' category rank, not the quality score. -/
theorem cap_per_domain_same_domain (items : List Item) (d : List Char)
    (m : Int) (hd : d ≠ []) (hall : ∀ i ∈ items, _domain i.url = d) :
    _cap_per_domain items m = items.take m.toNat := by
  have hde : d.isEmpty = false := List.isEmpty_eq_false.mpr hd
  cases items with
  | nil => simp [_cap_per_domain, capGo]
  | cons item rest =>
    have hdom : _domain item.url = d := hall item (List.mem_cons_self _ _)
    have hget : countGet [] d = 0 := by
      simp [countGet, List.find?]
    unfold _cap_per_domain
    simp only [capGo, hdom, hde, Bool.false_eq_true, if_false, hget]
    by_cases hc : m ≤ ((0 : Nat) : Int)
    · rw [if_pos hc]
      rw [capGo_nonpos m (by omega) rest]
      have hzero : m.toNat = 0 := by omega
      rw [hzero]
      simp
    · rw [if_neg hc]
      have hset : countSet [] d (0 + 1) = [(d, 1)] := by
        simp [countSet, List.find?]
      rw [hset,
        capGo_single_domain m d hd rest 1
          (fun i hi => hall i (List.mem_cons_of_mem _ hi))]
      have harith : m.toNat = (m - ((1 : Nat) : Int)).toNat + 1 := by
        simp only [Nat.cast_one]
        omega
      rw [harith]
      simp [List.take_succ_cons]

set_option maxRecDepth 100000 in
/-- C5 witness: the ten-item `domain.com` scenario with cap 5 keeps
exactly the first five items. -/
theorem cap_per_domain_same_domain_witness :
    _cap_per_domain c5Items 5 = c5Items.take 5 ∧
    (c5Items.take 5).length = 5 :=
  ⟨cap_per_domain_same_domain c5Items "domain.com".toList 5 (by decide)
      (by decide),
    by decide⟩

unseal Rat.mul Rat.inv Rat.add Rat.sub in
set_option maxRecDepth 400000 in
/-- C4 counterexample: digest dedup is not idempotent.  On
`[iAplain, iCplain, iBwhy]` the first pass merges `iAplain` into the
higher-quality `iBwhy` (similar titles) and keeps `iCplain` (not
similar to `iAplain`), producing `[iBwhy, iCplain]`; these two *are*
title-similar, so a second pass merges them to `[iBwhy]`. -/
theorem dedupe_items_not_idempotent :
    _dedupe_items [iAplain, iCplain, iBwhy] = [iBwhy, iCplain] ∧
    _dedupe_items (_dedupe_items [iAplain, iCplain, iBwhy]) = [iBwhy] ∧
    _dedupe_items (_dedupe_items [iAplain, iCplain, iBwhy]) ≠
      _dedupe_items [iAplain, iCplain, iBwhy] := by
  refine ⟨by decide, by decide, by decide⟩

/-- Helper for C4: an empty `by_url` map has no bindings. -/
theorem byUrlFind_nil (k : List Char) : byUrlFind [] k = none := rfl

/-- Helper for C4: setting an unbound key appends the binding. -/
theorem byUrlSet_of_none (m : List (List Char × Item)) (k : List Char)
    (v : Item) (h : byUrlFind m k = none) :
    byUrlSet m k v = m ++ [(k, v)] := by
  unfold byUrlSet
  unfold byUrlFind at h
  rw [Option.map_eq_none'] at h
  rw [h]
  rfl

/-- Helper for C4: a lookup misses a map extended with a different key
when it missed the original map. -/
theorem byUrlFind_append_ne (m : List (List Char × Item)) (k k2 : List Char)
    (v : Item) (h : byUrlFind m k2 = none) (hne : k2 ≠ k) :
    byUrlFind (m ++ [(k, v)]) k2 = none := by
  unfold byUrlFind at h ⊢
  rw [Option.map_eq_none'] at h ⊢
  rw [List.find?_eq_none] at h ⊢
  intro x hx
  rcases List.mem_append.mp hx with hx | hx
  · exact h x hx
  · rcases List.mem_singleton.mp hx with rfl
    simpa using fun heq => hne heq.symm

/-- Helper for C4: the URL bindings registered by a separated pass. -/
theorem dedupeGo_sep (items : List Item) :
    ∀ (by_url : List (List Char × Item)) (deduped : List Item),
    (∀ x ∈ items, _canonical_url x.url ≠ [] →
      byUrlFind by_url (_canonical_url x.url) = none) →
    (∀ x ∈ items, ∀ y ∈ deduped, _titles_similar y x = false) →
    List.Pairwise (fun x y => ¬(_canonical_url x.url ≠ [] ∧
      _canonical_url x.url = _canonical_url y.url)) items →
    List.Pairwise (fun x y => _titles_similar x y = false) items →
    dedupeGo items by_url deduped =
      (by_url ++ (items.filter
          (fun x => !(_canonical_url x.url).isEmpty)).map
          (fun x => (_canonical_url x.url, x)),
        deduped ++ items) := by
  induction items with
  | nil => intro by_url deduped _ _ _ _; simp [dedupeGo]
  | cons item rest ih =>
    intro by_url deduped hfresh hdissim hurl htit
    have hfind : deduped.find? (fun e => _titles_similar e item) = none := by
      apply List.find?_eq_none.mpr
      intro y hy
      simp [hdissim item (List.mem_cons_self _ _) y hy]
    by_cases hnu : _canonical_url item.url = []
    · have hcond : ¬((!(_canonical_url item.url).isEmpty) = true ∧
          (byUrlFind by_url (_canonical_url item.url)).isSome = true) := by
        rw [hnu]
        simp
      simp only [dedupeGo, if_neg hcond, hfind]
      rw [if_neg (by rw [hnu]; simp)]
      rw [ih by_url (deduped ++ [item])
        (fun x hx => hfresh x (List.mem_cons_of_mem _ hx))
        (fun x hx y hy => by
          rcases List.mem_append.mp hy with hy | hy
          · exact hdissim x (List.mem_cons_of_mem _ hx) y hy
          · rcases List.mem_singleton.mp hy with rfl
            exact (List.pairwise_cons.mp htit).1 x hx)
        (List.pairwise_cons.mp hurl).2 (List.pairwise_cons.mp htit).2]
      rw [List.filter_cons_of_neg (by rw [hnu]; simp)]
      simp
    · have hmiss : byUrlFind by_url (_canonical_url item.url) = none :=
        hfresh item (List.mem_cons_self _ _) hnu
      have hcond : ¬((!(_canonical_url item.url).isEmpty) = true ∧
          (byUrlFind by_url (_canonical_url item.url)).isSome = true) := by
        rw [hmiss]
        simp
      simp only [dedupeGo, if_neg hcond, hfind]
      rw [if_pos (by
        simp only [Bool.not_eq_true']
        exact List.isEmpty_eq_false.mpr hnu)]
      rw [byUrlSet_of_none by_url (_canonical_url item.url) item hmiss]
      rw [ih (by_url ++ [(_canonical_url item.url, item)]) (deduped ++ [item])
        (fun x hx hcu => by
          apply byUrlFind_append_ne
          · exact hfresh x (List.mem_cons_of_mem _ hx) hcu
          · have := (List.pairwise_cons.mp hurl).1 x hx
            intro heq
            exact this ⟨hnu, heq.symm⟩)
        (fun x hx y hy => by
          rcases List.mem_append.mp hy with hy | hy
          · exact hdissim x (List.mem_cons_of_mem _ hx) y hy
          · rcases List.mem_singleton.mp hy with rfl
            exact (List.pairwise_cons.mp htit).1 x hx)
        (List.pairwise_cons.mp hurl).2 (List.pairwise_cons.mp htit).2]
      rw [List.filter_cons_of_pos (by
        simp only [Bool.not_eq_true']
        exact List.isEmpty_eq_false.mpr hnu)]
      simp

/-- Helper for C4: looking up an item's canonical URL in the binding
list of a URL-separated item list returns the item itself. -/
theorem urlPairs_lookup (items : List Item)
    (hurl : List.Pairwise (fun x y => ¬(_canonical_url x.url ≠ [] ∧
      _canonical_url x.url = _canonical_url y.url)) items) :
    ∀ x ∈ items, _canonical_url x.url ≠ [] →
      byUrlFind ((items.filter
        (fun i => !(_canonical_url i.url).isEmpty)).map
        (fun i => (_canonical_url i.url, i))) (_canonical_url x.url) =
        some x := by
  induction items with
  | nil => intro x hx; simp at hx
  | cons y rest ih =>
    intro x hx hcu
    rcases List.mem_cons.mp hx with rfl | hx
    · rw [List.filter_cons_of_pos (by
        simp only [Bool.not_eq_true']
        exact List.isEmpty_eq_false.mpr hcu)]
      unfold byUrlFind
      rw [List.map_cons, List.find?_cons_of_pos _ (by simp)]
      rfl
    · have hne : _canonical_url x.url ≠ _canonical_url y.url := by
        have := (List.pairwise_cons.mp hurl).1 x hx
        intro heq
        exact this ⟨by rw [← heq]; exact hcu, heq.symm⟩
      by_cases hye : _canonical_url y.url = []
      · rw [List.filter_cons_of_neg (by rw [hye]; simp)]
        exact ih (List.pairwise_cons.mp hurl).2 x hx hcu
      · rw [List.filter_cons_of_pos (by
          simp only [Bool.not_eq_true']
          exact List.isEmpty_eq_false.mpr hye)]
        unfold byUrlFind
        rw [List.map_cons, List.find?_cons_of_neg _ (by simpa using hne.symm)]
        exact ih (List.pairwise_cons.mp hurl).2 x hx hcu

/-- Helper for C4: the merge loop is the identity on an id-separated
list whose URL bindings point back at the items themselves. -/
theorem dedupeMergeGo_sep (by_url : List (List Char × Item))
    (items : List Item) :
    ∀ (seen : List (Option (List Char))),
    (∀ x ∈ items, _canonical_url x.url ≠ [] →
      byUrlFind by_url (_canonical_url x.url) = some x) →
    (∀ x ∈ items, seen.contains x.id = false) →
    List.Pairwise (fun x y => x.id ≠ y.id) items →
    dedupeMergeGo by_url items seen = items := by
  induction items with
  | nil => intro seen _ _ _; rfl
  | cons item rest ih =>
    intro seen hself hseen hid
    have hitem2 :
        (if !(_canonical_url item.url).isEmpty then
          (byUrlFind by_url (_canonical_url item.url)).getD item
         else item) = item := by
      by_cases hnu : _canonical_url item.url = []
      · rw [if_neg (by rw [hnu]; simp)]
      · rw [if_pos (by
          simp only [Bool.not_eq_true']
          exact List.isEmpty_eq_false.mpr hnu)]
        rw [hself item (List.mem_cons_self _ _) hnu]
        rfl
    simp only [dedupeMergeGo, hitem2]
    rw [if_neg (by
      rw [hseen item (List.mem_cons_self _ _)]
      simp)]
    congr 1
    apply ih (item.id :: seen)
    · intro x hx
      exact hself x (List.mem_cons_of_mem _ hx)
    · intro x hx
      have h1 : (item.id == x.id) = false := by
        have := (List.pairwise_cons.mp hid).1 x hx
        simpa [beq_iff_eq] using this
      have h2 := hseen x (List.mem_cons_of_mem _ hx)
      simp only [List.contains_cons, h2, Bool.or_false]
      simpa [BEq.comm] using h1
    · exact (List.pairwise_cons.mp hid).2

/-- C4 amended: dedup is a no-op (hence idempotent) on item lists that
are already separated — pairwise distinct (nonempty) canonical URLs,
pairwise dissimilar titles, and pairwise distinct ids; in general
`dedup(dedup(items)) = dedup(items)` fails, because a title merge that
keeps the higher-quality newcomer can create a new similar pair
(see the counterexample). -/
theorem dedupe_items_noop (items : List Item)
    (hurl : List.Pairwise (fun x y => ¬(_canonical_url x.url ≠ [] ∧
      _canonical_url x.url = _canonical_url y.url)) items)
    (htit : List.Pairwise (fun x y => _titles_similar x y = false) items)
    (hid : List.Pairwise (fun x y => x.id ≠ y.id) items) :
    _dedupe_items items = items := by
  unfold _dedupe_items
  rw [dedupeGo_sep items [] [] (fun x _ _ => byUrlFind_nil _)
    (fun x _ y hy => absurd hy (List.not_mem_nil y)) hurl htit]
  simp only [List.nil_append]
  exact dedupeMergeGo_sep _ items []
    (fun x hx hcu => urlPairs_lookup items hurl x hx hcu)
    (fun x _ => rfl) hid

unseal Rat.mul Rat.inv Rat.add Rat.sub in
set_option maxRecDepth 400000 in
/-- C4 witness: `[iAplain, iCplain]` (dissimilar titles, distinct URLs
and ids) passes through dedup unchanged. -/
theorem dedupe_items_noop_witness :
    _dedupe_items [iAplain, iCplain] = [iAplain, iCplain] :=
  dedupe_items_noop [iAplain, iCplain] (by decide) (by decide) (by decide)

/-! ### C8 helpers: properties of the embedded `urllib.parse` -/

/-! ### C8 helper lemmas: list splitting -/

/-- `splitFirst` returns `none` exactly when the separator is absent. -/
theorem splitFirst_eq_none_iff (sep : Char) (l : List Char) :
    splitFirst sep l = none ↔ sep ∉ l := by
  induction l with
  | nil => simp [splitFirst]
  | cons c cs ih =>
    by_cases hc : c = sep
    · subst hc; simp [splitFirst]
    · simp [splitFirst, hc, Option.map_eq_none', ih]
      intro h
      exact fun he => hc he.symm

/-- A successful `splitFirst` decomposes the list at the first separator. -/
theorem splitFirst_eq_some (sep : Char) (l b a : List Char)
    (h : splitFirst sep l = some (b, a)) :
    l = b ++ sep :: a ∧ sep ∉ b := by
  induction l generalizing b with
  | nil => simp [splitFirst] at h
  | cons c cs ih =>
    by_cases hc : c = sep
    · subst hc
      simp [splitFirst] at h
      obtain ⟨hb, ha⟩ := h
      subst hb; subst ha
      simp
    · rw [splitFirst, if_neg hc] at h
      cases hsp : splitFirst sep cs with
      | none => rw [hsp] at h; simp at h
      | some p =>
        rw [hsp] at h
        simp at h
        obtain ⟨hb, ha⟩ := h
        obtain ⟨hl, hns⟩ := ih p.1 (ha ▸ hsp)
        constructor
        · rw [← hb, hl]; simp
        · rw [← hb]
          simp [hns]
          exact fun he => hc he.symm

/-- `splitFirst` at a separator-free prefix followed by the separator. -/
theorem splitFirst_append (sep : Char) (x y : List Char) (hx : sep ∉ x) :
    splitFirst sep (x ++ sep :: y) = some (x, y) := by
  induction x with
  | nil => simp [splitFirst]
  | cons c cs ih =>
    have hc : ¬ c = sep := by
      intro h; exact hx (h ▸ List.mem_cons_self c cs)
    have hcs : sep ∉ cs := fun h => hx (List.mem_cons_of_mem c h)
    simp [splitFirst, hc, ih hcs]

/-- `takeWhile` passes over a prefix on which the predicate holds. -/
theorem takeWhile_append_all (p : Char → Bool) (x y : List Char)
    (hx : ∀ c ∈ x, p c = true) :
    (x ++ y).takeWhile p = x ++ y.takeWhile p := by
  induction x with
  | nil => simp
  | cons c cs ih =>
    have hc : p c = true := hx c (List.mem_cons_self c cs)
    simp [List.takeWhile_cons, hc]
    exact ih fun d hd => hx d (List.mem_cons_of_mem c hd)

/-- `dropWhile` passes over a prefix on which the predicate holds. -/
theorem dropWhile_append_all (p : Char → Bool) (x y : List Char)
    (hx : ∀ c ∈ x, p c = true) :
    (x ++ y).dropWhile p = y.dropWhile p := by
  induction x with
  | nil => simp
  | cons c cs ih =>
    have hc : p c = true := hx c (List.mem_cons_self c cs)
    simp [List.dropWhile_cons, hc]
    exact ih fun d hd => hx d (List.mem_cons_of_mem c hd)

/-! ### C8 helper lemmas: characters -/

/-- Order on `UInt32` coincides with order on the underlying `Nat`. -/
theorem uint32_le_iff (a b : UInt32) : a ≤ b ↔ a.toNat ≤ b.toNat := Iff.rfl

/-- Order on `Char` in terms of code points. -/
theorem char_le_iff (a b : Char) : a ≤ b ↔ a.toNat ≤ b.toNat := Iff.rfl

/-- Equality on `Char` in terms of code points. -/
theorem char_eq_iff (a b : Char) : a = b ↔ a.toNat = b.toNat := by
  constructor
  · intro h; rw [h]
  · intro h
    apply Char.ext
    unfold Char.toNat at h
    exact UInt32.toNat.inj h

/-- `Char.isAlpha` in terms of code points. -/
theorem isAlpha_iff (c : Char) :
    c.isAlpha = true ↔
      (65 ≤ c.toNat ∧ c.toNat ≤ 90) ∨ (97 ≤ c.toNat ∧ c.toNat ≤ 122) := by
  unfold Char.isAlpha Char.isUpper Char.isLower
  simp only [Bool.or_eq_true, Bool.and_eq_true, decide_eq_true_eq]
  constructor
  · rintro (⟨h1, h2⟩ | ⟨h1, h2⟩)
    · exact Or.inl ⟨(uint32_le_iff 65 c.val).mp h1, (uint32_le_iff c.val 90).mp h2⟩
    · exact Or.inr ⟨(uint32_le_iff 97 c.val).mp h1, (uint32_le_iff c.val 122).mp h2⟩
  · rintro (⟨h1, h2⟩ | ⟨h1, h2⟩)
    · exact Or.inl ⟨(uint32_le_iff 65 c.val).mpr h1, (uint32_le_iff c.val 90).mpr h2⟩
    · exact Or.inr ⟨(uint32_le_iff 97 c.val).mpr h1, (uint32_le_iff c.val 122).mpr h2⟩

/-- `Char.isDigit` in terms of code points. -/
theorem isDigit_iff (c : Char) :
    c.isDigit = true ↔ 48 ≤ c.toNat ∧ c.toNat ≤ 57 := by
  unfold Char.isDigit
  simp only [Bool.and_eq_true, decide_eq_true_eq]
  constructor
  · rintro ⟨h1, h2⟩
    exact ⟨(uint32_le_iff 48 c.val).mp h1, (uint32_le_iff c.val 57).mp h2⟩
  · rintro ⟨h1, h2⟩
    exact ⟨(uint32_le_iff 48 c.val).mpr h1, (uint32_le_iff c.val 57).mpr h2⟩

/-- Every code point is below `0x110000`. -/
theorem char_toNat_lt (c : Char) : c.toNat < 0x110000 := by
  have := c.valid
  unfold Nat.isValidChar at this
  unfold Char.toNat
  rcases this with h | h
  · omega
  · omega

/-- No code point is a surrogate. -/
theorem char_not_surrogate (c : Char) :
    ¬ (0xD800 ≤ c.toNat ∧ c.toNat < 0xE000) := by
  have := c.valid
  unfold Nat.isValidChar at this
  unfold Char.toNat
  rcases this with h | h
  · omega
  · omega

/-- `Char.ofNat` below the surrogate range keeps the code point. -/
theorem toNat_ofNat_of_lt (n : Nat) (h : n < 0xD800) :
    (Char.ofNat n).toNat = n := by
  unfold Char.ofNat
  rw [dif_pos (Or.inl h)]
  rfl

/-- The code point of `pyToLower`. -/
theorem pyToLower_toNat (c : Char) :
    (pyToLower c).toNat =
      if 65 ≤ c.toNat ∧ c.toNat ≤ 90 then c.toNat + 32 else c.toNat := by
  unfold pyToLower
  by_cases h : 65 ≤ c.toNat ∧ c.toNat ≤ 90
  · rw [if_pos (show 'A' ≤ c ∧ c ≤ 'Z' from h), if_pos h]
    exact toNat_ofNat_of_lt (c.toNat + 32) (by omega)
  · rw [if_neg (show ¬ ('A' ≤ c ∧ c ≤ 'Z') from h), if_neg h]

/-- `pyToLower` is idempotent. -/
theorem pyToLower_idem (c : Char) : pyToLower (pyToLower c) = pyToLower c := by
  rw [char_eq_iff, pyToLower_toNat (pyToLower c), pyToLower_toNat c]
  split_ifs <;> omega

/-- `toLowerList` is idempotent. -/
theorem toLowerList_idem (l : List Char) :
    toLowerList (toLowerList l) = toLowerList l := by
  unfold toLowerList
  rw [List.map_map]
  exact List.map_congr_left fun c _ => pyToLower_idem c

/-- `pyToLower` preserves `isAlpha`. -/
theorem pyToLower_isAlpha (c : Char) (h : c.isAlpha = true) :
    (pyToLower c).isAlpha = true := by
  rw [isAlpha_iff] at h ⊢
  rw [pyToLower_toNat]
  split_ifs with h2
  · omega
  · omega

/-- `isSchemeChar` in terms of code points. -/
theorem isSchemeChar_iff (c : Char) :
    isSchemeChar c = true ↔
      ((65 ≤ c.toNat ∧ c.toNat ≤ 90) ∨ (97 ≤ c.toNat ∧ c.toNat ≤ 122) ∨
        (48 ≤ c.toNat ∧ c.toNat ≤ 57) ∨
        c.toNat = 43 ∨ c.toNat = 45 ∨ c.toNat = 46) := by
  unfold isSchemeChar
  simp only [Bool.or_eq_true, decide_eq_true_eq, isAlpha_iff, isDigit_iff]
  constructor
  · rintro ((((h | h) | h) | h) | h)
    · omega
    · omega
    · subst h; decide
    · subst h; decide
    · subst h; decide
  · rintro (h | h | h | h | h | h)
    · exact Or.inl (Or.inl (Or.inl (Or.inl (Or.inl h))))
    · exact Or.inl (Or.inl (Or.inl (Or.inl (Or.inr h))))
    · exact Or.inl (Or.inl (Or.inl (Or.inr h)))
    · exact Or.inl (Or.inl (Or.inr ((char_eq_iff c '+').mpr (h.trans rfl))))
    · exact Or.inl (Or.inr ((char_eq_iff c '-').mpr (h.trans rfl)))
    · exact Or.inr ((char_eq_iff c '.').mpr (h.trans rfl))

/-- `pyToLower` preserves `isSchemeChar`. -/
theorem pyToLower_isSchemeChar (c : Char) (h : isSchemeChar c = true) :
    isSchemeChar (pyToLower c) = true := by
  rw [isSchemeChar_iff] at h ⊢
  rw [pyToLower_toNat]
  split_ifs with h2
  · omega
  · omega

/-- `alwaysSafe` in terms of code points. -/
theorem alwaysSafe_iff (c : Char) :
    alwaysSafe c = true ↔
      ((65 ≤ c.toNat ∧ c.toNat ≤ 90) ∨ (97 ≤ c.toNat ∧ c.toNat ≤ 122) ∨
        (48 ≤ c.toNat ∧ c.toNat ≤ 57) ∨
        c.toNat = 95 ∨ c.toNat = 46 ∨ c.toNat = 45 ∨ c.toNat = 126) := by
  unfold alwaysSafe
  simp only [Bool.or_eq_true, decide_eq_true_eq, isAlpha_iff, isDigit_iff]
  constructor
  · rintro (((((h | h) | h) | h) | h) | h)
    · omega
    · omega
    · subst h; decide
    · subst h; decide
    · subst h; decide
    · subst h; decide
  · rintro (h | h | h | h | h | h | h)
    · exact Or.inl (Or.inl (Or.inl (Or.inl (Or.inl (Or.inl h)))))
    · exact Or.inl (Or.inl (Or.inl (Or.inl (Or.inl (Or.inr h)))))
    · exact Or.inl (Or.inl (Or.inl (Or.inl (Or.inr h))))
    · exact Or.inl (Or.inl (Or.inl (Or.inr ((char_eq_iff c '_').mpr (h.trans rfl)))))
    · exact Or.inl (Or.inl (Or.inr ((char_eq_iff c '.').mpr (h.trans rfl))))
    · exact Or.inl (Or.inr ((char_eq_iff c '-').mpr (h.trans rfl)))
    · exact Or.inr ((char_eq_iff c '~').mpr (h.trans rfl))

/-- `isNetlocDelim` in terms of code points. -/
theorem isNetlocDelim_iff (c : Char) :
    isNetlocDelim c = true ↔
      (c.toNat = 47 ∨ c.toNat = 63 ∨ c.toNat = 35) := by
  unfold isNetlocDelim
  simp only [Bool.or_eq_true, decide_eq_true_eq]
  constructor
  · rintro ((h | h) | h)
    · subst h; decide
    · subst h; decide
    · subst h; decide
  · rintro (h | h | h)
    · exact Or.inl (Or.inl ((char_eq_iff c '/').mpr (h.trans rfl)))
    · exact Or.inl (Or.inr ((char_eq_iff c '?').mpr (h.trans rfl)))
    · exact Or.inr ((char_eq_iff c '#').mpr (h.trans rfl))

/-- `hexVal` inverts `hexDigit` on hex digits. -/
theorem hexVal_hexDigit (n : Nat) (h : n < 16) :
    hexVal (hexDigit n) = some n := by
  interval_cases n <;> decide

/-- `hexDigit` output is always-safe for `quote`. -/
theorem alwaysSafe_hexDigit (n : Nat) (h : n < 16) :
    alwaysSafe (hexDigit n) = true := by
  interval_cases n <;> decide

/-- `hexDigit` never yields `+`. -/
theorem hexDigit_ne_plus (n : Nat) (h : n < 16) : hexDigit n ≠ '+' := by
  interval_cases n <;> decide

/-! ### C8 helper lemmas: UTF-8 round trip -/

/-- Decoding consumes one encoded character per unit of fuel. -/
theorem utf8DecodeGo_encodeChar (c : Char) (fuel : Nat) (bs : List Nat) :
    utf8DecodeGo (fuel + 1) (utf8EncodeChar c ++ bs) =
      c :: utf8DecodeGo fuel bs := by
  have hlt : c.toNat < 0x110000 := char_toNat_lt c
  have hsur : ¬ (0xD800 ≤ c.toNat ∧ c.toNat < 0xE000) := char_not_surrogate c
  have hofn : Char.ofNat c.toNat = c := Char.ofNat_toNat c
  simp only [utf8EncodeChar]
  by_cases h1 : c.toNat < 0x80
  · rw [if_pos h1]
    simp only [List.append_eq, List.cons_append, List.nil_append, utf8DecodeGo]
    rw [if_pos h1, hofn]
  · rw [if_neg h1]
    by_cases h2 : c.toNat < 0x800
    · rw [if_pos h2]
      simp only [List.append_eq, List.cons_append, List.nil_append, utf8DecodeGo]
      rw [if_neg (show ¬ (0xC0 + c.toNat / 0x40 < 0x80) by omega),
        if_neg (show ¬ (0xC0 + c.toNat / 0x40 < 0xC2) by omega),
        if_pos (show 0xC0 + c.toNat / 0x40 < 0xE0 by omega),
        if_pos (show isCont (0x80 + c.toNat % 0x40) = true from
          decide_eq_true (by omega)),
        show (0xC0 + c.toNat / 0x40 - 0xC0) * 0x40 +
          (0x80 + c.toNat % 0x40 - 0x80) = c.toNat by omega, hofn]
    · rw [if_neg h2]
      by_cases h3 : c.toNat < 0x10000
      · rw [if_pos h3]
        simp only [List.append_eq, List.cons_append, List.nil_append, utf8DecodeGo]
        rw [if_neg (show ¬ (0xE0 + c.toNat / 0x1000 < 0x80) by omega),
          if_neg (show ¬ (0xE0 + c.toNat / 0x1000 < 0xC2) by omega),
          if_neg (show ¬ (0xE0 + c.toNat / 0x1000 < 0xE0) by omega),
          if_pos (show 0xE0 + c.toNat / 0x1000 < 0xF0 by omega)]
        by_cases hA : c.toNat < 0x1000
        · rw [if_pos (show 0xE0 + c.toNat / 0x1000 = 0xE0 by omega),
            if_pos (show (decide (0xA0 ≤ 0x80 + c.toNat / 0x40 % 0x40 ∧
              0x80 + c.toNat / 0x40 % 0x40 < 0xC0)) = true from
              decide_eq_true (by omega)),
            if_pos (show isCont (0x80 + c.toNat % 0x40) = true from
              decide_eq_true (by omega)),
            show (0xE0 + c.toNat / 0x1000 - 0xE0) * 0x1000 +
              (0x80 + c.toNat / 0x40 % 0x40 - 0x80) * 0x40 +
              (0x80 + c.toNat % 0x40 - 0x80) = c.toNat by omega, hofn]
        · by_cases hB : 0xD000 ≤ c.toNat ∧ c.toNat < 0xE000
          · rw [if_neg (show ¬ (0xE0 + c.toNat / 0x1000 = 0xE0) by omega),
              if_pos (show 0xE0 + c.toNat / 0x1000 = 0xED by omega),
              if_pos (show (decide (0x80 ≤ 0x80 + c.toNat / 0x40 % 0x40 ∧
                0x80 + c.toNat / 0x40 % 0x40 < 0xA0)) = true from
                decide_eq_true (by omega)),
              if_pos (show isCont (0x80 + c.toNat % 0x40) = true from
                decide_eq_true (by omega)),
              show (0xE0 + c.toNat / 0x1000 - 0xE0) * 0x1000 +
                (0x80 + c.toNat / 0x40 % 0x40 - 0x80) * 0x40 +
                (0x80 + c.toNat % 0x40 - 0x80) = c.toNat by omega, hofn]
          · rw [if_neg (show ¬ (0xE0 + c.toNat / 0x1000 = 0xE0) by omega),
              if_neg (show ¬ (0xE0 + c.toNat / 0x1000 = 0xED) by omega),
              if_pos (show isCont (0x80 + c.toNat / 0x40 % 0x40) = true from
                decide_eq_true (by omega)),
              if_pos (show isCont (0x80 + c.toNat % 0x40) = true from
                decide_eq_true (by omega)),
              show (0xE0 + c.toNat / 0x1000 - 0xE0) * 0x1000 +
                (0x80 + c.toNat / 0x40 % 0x40 - 0x80) * 0x40 +
                (0x80 + c.toNat % 0x40 - 0x80) = c.toNat by omega, hofn]
      · rw [if_neg h3]
        simp only [List.append_eq, List.cons_append, List.nil_append, utf8DecodeGo]
        rw [if_neg (show ¬ (0xF0 + c.toNat / 0x40000 < 0x80) by omega),
          if_neg (show ¬ (0xF0 + c.toNat / 0x40000 < 0xC2) by omega),
          if_neg (show ¬ (0xF0 + c.toNat / 0x40000 < 0xE0) by omega),
          if_neg (show ¬ (0xF0 + c.toNat / 0x40000 < 0xF0) by omega),
          if_pos (show 0xF0 + c.toNat / 0x40000 < 0xF5 by omega)]
        by_cases hA : c.toNat < 0x40000
        · rw [if_pos (show 0xF0 + c.toNat / 0x40000 = 0xF0 by omega),
            if_pos (show (decide (0x90 ≤ 0x80 + c.toNat / 0x1000 % 0x40 ∧
              0x80 + c.toNat / 0x1000 % 0x40 < 0xC0)) = true from
              decide_eq_true (by omega)),
            if_pos (show isCont (0x80 + c.toNat / 0x40 % 0x40) = true from
              decide_eq_true (by omega)),
            if_pos (show isCont (0x80 + c.toNat % 0x40) = true from
              decide_eq_true (by omega)),
            show (0xF0 + c.toNat / 0x40000 - 0xF0) * 0x40000 +
              (0x80 + c.toNat / 0x1000 % 0x40 - 0x80) * 0x1000 +
              (0x80 + c.toNat / 0x40 % 0x40 - 0x80) * 0x40 +
              (0x80 + c.toNat % 0x40 - 0x80) = c.toNat by omega, hofn]
        · by_cases hB : 0x100000 ≤ c.toNat
          · rw [if_neg (show ¬ (0xF0 + c.toNat / 0x40000 = 0xF0) by omega),
              if_pos (show 0xF0 + c.toNat / 0x40000 = 0xF4 by omega),
              if_pos (show (decide (0x80 ≤ 0x80 + c.toNat / 0x1000 % 0x40 ∧
                0x80 + c.toNat / 0x1000 % 0x40 < 0x90)) = true from
                decide_eq_true (by omega)),
              if_pos (show isCont (0x80 + c.toNat / 0x40 % 0x40) = true from
                decide_eq_true (by omega)),
              if_pos (show isCont (0x80 + c.toNat % 0x40) = true from
                decide_eq_true (by omega)),
              show (0xF0 + c.toNat / 0x40000 - 0xF0) * 0x40000 +
                (0x80 + c.toNat / 0x1000 % 0x40 - 0x80) * 0x1000 +
                (0x80 + c.toNat / 0x40 % 0x40 - 0x80) * 0x40 +
                (0x80 + c.toNat % 0x40 - 0x80) = c.toNat by omega, hofn]
          · rw [if_neg (show ¬ (0xF0 + c.toNat / 0x40000 = 0xF0) by omega),
              if_neg (show ¬ (0xF0 + c.toNat / 0x40000 = 0xF4) by omega),
              if_pos (show isCont (0x80 + c.toNat / 0x1000 % 0x40) = true from
                decide_eq_true (by omega)),
              if_pos (show isCont (0x80 + c.toNat / 0x40 % 0x40) = true from
                decide_eq_true (by omega)),
              if_pos (show isCont (0x80 + c.toNat % 0x40) = true from
                decide_eq_true (by omega)),
              show (0xF0 + c.toNat / 0x40000 - 0xF0) * 0x40000 +
                (0x80 + c.toNat / 0x1000 % 0x40 - 0x80) * 0x1000 +
                (0x80 + c.toNat / 0x40 % 0x40 - 0x80) * 0x40 +
                (0x80 + c.toNat % 0x40 - 0x80) = c.toNat by omega, hofn]

/-- Decoding the empty byte list. -/
theorem utf8DecodeGo_nil (f : Nat) : utf8DecodeGo f [] = [] := by
  cases f <;> rfl

/-- Each encoded character occupies at least one byte. -/
theorem utf8EncodeChar_length_pos (c : Char) :
    1 ≤ (utf8EncodeChar c).length := by
  simp only [utf8EncodeChar]
  split_ifs <;> simp

/-- Encoded bytes are bytes. -/
theorem utf8EncodeChar_lt_256 (c : Char) :
    ∀ b ∈ utf8EncodeChar c, b < 256 := by
  have hlt : c.toNat < 0x110000 := char_toNat_lt c
  simp only [utf8EncodeChar]
  split_ifs with h1 h2 h3 <;> intro b hb <;> simp at hb <;> omega

/-- An ASCII character encodes to its own code point. -/
theorem utf8EncodeChar_ascii (c : Char) (h : c.toNat < 0x80) :
    utf8EncodeChar c = [c.toNat] := by
  simp only [utf8EncodeChar]
  rw [if_pos h]

/-- The encoding is at least as long as the string. -/
theorem utf8Encode_length (s : List Char) :
    s.length ≤ (utf8Encode s).length := by
  induction s with
  | nil => simp [utf8Encode]
  | cons c t ih =>
    have := utf8EncodeChar_length_pos c
    simp only [utf8Encode, List.flatMap_cons, List.length_append,
      List.length_cons]
    simp only [utf8Encode] at ih
    omega

/-- Decoding inverts encoding, given enough fuel. -/
theorem utf8DecodeGo_encode (s : List Char) :
    ∀ fuel, s.length < fuel → utf8DecodeGo fuel (utf8Encode s) = s := by
  induction s with
  | nil => intro fuel _; exact utf8DecodeGo_nil fuel
  | cons c t ih =>
    intro fuel hf
    match fuel, hf with
    | f + 1, hf =>
      show utf8DecodeGo (f + 1) (utf8EncodeChar c ++ utf8Encode t) = c :: t
      rw [utf8DecodeGo_encodeChar, ih f (by simp at hf; omega)]

/-- `utf8DecodeReplace` inverts `utf8Encode`. -/
theorem utf8DecodeReplace_encode (s : List Char) :
    utf8DecodeReplace (utf8Encode s) = s := by
  unfold utf8DecodeReplace
  exact utf8DecodeGo_encode s _ (by have := utf8Encode_length s; omega)

/-! ### C8 helper lemmas: quote and unquote -/

/-- Characters produced by `quote_plus` are safe, `+`, or `%`. -/
theorem quotePlusChar_mem (c : Char) :
    ∀ d ∈ quotePlusChar c, alwaysSafe d = true ∨ d = '+' ∨ d = '%' := by
  unfold quotePlusChar
  split_ifs with h1 h2 <;> intro d hd
  · simp at hd
    subst hd
    exact Or.inl h1
  · simp at hd
    subst hd
    exact Or.inr (Or.inl rfl)
  · simp at hd
    obtain ⟨b, hb, hd⟩ := hd
    have hb256 : b < 256 := utf8EncodeChar_lt_256 c b hb
    rcases hd with hd | hd | hd
    · exact Or.inr (Or.inr hd)
    · subst hd; exact Or.inl (alwaysSafe_hexDigit _ (by omega))
    · subst hd; exact Or.inl (alwaysSafe_hexDigit _ (by omega))

/-- Always-safe characters are printable ASCII. -/
theorem alwaysSafe_toNat (c : Char) (h : alwaysSafe c = true) :
    0x20 < c.toNat ∧ c.toNat < 0x80 := by
  rw [alwaysSafe_iff] at h
  omega

/-- `unquote_to_bytes` on a non-`%` head. -/
theorem unquoteToBytes_cons (c : Char) (R : List Char) (h : c ≠ '%') :
    unquoteToBytes (c :: R) = c.toNat :: unquoteToBytes R := by
  rw [unquoteToBytes.eq_def]
  split
  · rename_i c1 c2 rest heq
    rw [List.cons_eq_cons] at heq
    exact absurd heq.1 h
  · rename_i c' rest heq
    rw [List.cons_eq_cons] at heq
    rw [heq.1, heq.2]
  · rename_i heq
    exact absurd heq (by simp)

/-- `unquote_to_bytes` decodes a percent escape. -/
theorem unquoteToBytes_percent (b : Nat) (R : List Char) (h : b < 256) :
    unquoteToBytes ('%' :: hexDigit (b / 16) :: hexDigit (b % 16) :: R) =
      b :: unquoteToBytes R := by
  simp only [unquoteToBytes, hexVal_hexDigit (b / 16) (by omega),
    hexVal_hexDigit (b % 16) (by omega)]
  rw [show b / 16 * 16 + b % 16 = b by omega]

/-- `+`→space is the identity on a percent-escape block list. -/
theorem plusToSpace_hexBlocks (bs : List Nat) (h : ∀ b ∈ bs, b < 256) :
    plusToSpace (bs.flatMap
        (fun b => '%' :: hexDigit (b / 16) :: [hexDigit (b % 16)])) =
      bs.flatMap (fun b => '%' :: hexDigit (b / 16) :: [hexDigit (b % 16)]) := by
  induction bs with
  | nil => rfl
  | cons b t ih =>
    have hb : b < 256 := h b (List.mem_cons_self b t)
    rw [List.flatMap_cons]
    unfold plusToSpace
    rw [List.map_append]
    show plusToSpace _ ++ plusToSpace _ = _
    rw [ih fun d hd => h d (List.mem_cons_of_mem b hd)]
    unfold plusToSpace
    simp only [List.map_cons, List.map_nil]
    rw [if_neg (by decide), if_neg (hexDigit_ne_plus _ (by omega)),
      if_neg (hexDigit_ne_plus _ (by omega))]

/-- `unquote_to_bytes` recovers the bytes of a percent-escape block list. -/
theorem unquoteToBytes_hexBlocks (bs : List Nat) (R : List Char)
    (h : ∀ b ∈ bs, b < 256) :
    unquoteToBytes (bs.flatMap
        (fun b => '%' :: hexDigit (b / 16) :: [hexDigit (b % 16)]) ++ R) =
      bs ++ unquoteToBytes R := by
  induction bs with
  | nil => rfl
  | cons b t ih =>
    have hb : b < 256 := h b (List.mem_cons_self b t)
    rw [List.flatMap_cons, List.append_assoc]
    show unquoteToBytes ('%' :: hexDigit (b / 16) :: hexDigit (b % 16) ::
      (t.flatMap _ ++ R)) = _
    rw [unquoteToBytes_percent b _ hb,
      ih fun d hd => h d (List.mem_cons_of_mem b hd)]
    rfl

/-- `unquote_to_bytes` undoes one quoted character. -/
theorem unquoteToBytes_pts_qpc (c : Char) (R : List Char) :
    unquoteToBytes (plusToSpace (quotePlusChar c) ++ R) =
      utf8EncodeChar c ++ unquoteToBytes R := by
  unfold quotePlusChar
  split_ifs with h1 h2
  · have hlt : c.toNat < 0x80 := (alwaysSafe_toNat c h1).2
    have hplus : c ≠ '+' := by
      intro he; rw [he] at h1; exact absurd h1 (by decide)
    have hpct : c ≠ '%' := by
      intro he; rw [he] at h1; exact absurd h1 (by decide)
    show unquoteToBytes ((if c = '+' then ' ' else c) :: R) = _
    rw [if_neg hplus, unquoteToBytes_cons c R hpct, utf8EncodeChar_ascii c hlt]
    rfl
  · subst h2
    show unquoteToBytes ((if '+' = '+' then ' ' else '+') :: R) = _
    rw [if_pos rfl, unquoteToBytes_cons ' ' R (by decide),
      show utf8EncodeChar ' ' = [' '.toNat] from by decide]
    rfl
  · rw [plusToSpace_hexBlocks _ (utf8EncodeChar_lt_256 c),
      unquoteToBytes_hexBlocks _ R (utf8EncodeChar_lt_256 c)]

/-- `unquote_to_bytes` undoes `quote_plus` up to UTF-8 encoding. -/
theorem unquoteToBytes_pts_quote (s : List Char) :
    unquoteToBytes (plusToSpace (quote_plus s)) = utf8Encode s := by
  induction s with
  | nil => rfl
  | cons c t ih =>
    show unquoteToBytes (plusToSpace (quotePlusChar c ++ quote_plus t)) = _
    unfold plusToSpace
    rw [List.map_append]
    show unquoteToBytes (plusToSpace _ ++ plusToSpace _) = _
    rw [unquoteToBytes_pts_qpc, ih]
    rfl

/-- Quoted output consists of ASCII characters. -/
theorem pts_quote_ascii (s : List Char) :
    ∀ c ∈ plusToSpace (quote_plus s), c.toNat < 0x80 := by
  intro c hc
  unfold plusToSpace at hc
  rw [List.mem_map] at hc
  obtain ⟨d, hd, hc⟩ := hc
  unfold quote_plus at hd
  rw [List.mem_flatMap] at hd
  obtain ⟨e, _, hd⟩ := hd
  rcases quotePlusChar_mem e d hd with h | h | h
  · have := (alwaysSafe_toNat d h).2
    subst hc
    split_ifs <;> simp_all
  · subst h; subst hc; decide
  · subst h; subst hc; decide

/-- On all-ASCII input `unquote` is percent-decoding plus UTF-8 decoding. -/
theorem unquoteGo_ascii (l : List Char) :
    ∀ acc, (∀ c ∈ l, c.toNat < 0x80) →
      unquoteGo l acc = utf8DecodeReplace (unquoteToBytes (acc.reverse ++ l)) := by
  induction l with
  | nil =>
    intro acc _
    show unquoteFlush acc = _
    unfold unquoteFlush
    rw [List.append_nil]
  | cons c cs ih =>
    intro acc h
    show (if c.toNat < 0x80 then unquoteGo cs (c :: acc) else _) = _
    rw [if_pos (h c (List.mem_cons_self c cs)),
      ih (c :: acc) fun d hd => h d (List.mem_cons_of_mem c hd),
      List.reverse_cons, List.append_assoc]
    rfl

/-- `unquote` undoes `quote_plus` followed by `+`→space. -/
theorem unquote_pts_quote (s : List Char) :
    unquote (plusToSpace (quote_plus s)) = s := by
  unfold unquote
  rw [unquoteGo_ascii _ [] (pts_quote_ascii s), List.reverse_nil,
    List.nil_append, unquoteToBytes_pts_quote, utf8DecodeReplace_encode]

/-! ### C8 helper lemmas: query strings -/

/-- `intercalate` over at least two pieces. -/
theorem intercalate_cons_cons (xs a b : List Char) (l : List (List Char)) :
    List.intercalate xs (a :: b :: l) =
      a ++ xs ++ List.intercalate xs (b :: l) := by
  simp [List.intercalate, List.intersperse, List.flatten_cons,
    List.append_assoc]

/-- `intercalate` over a single piece. -/
theorem intercalate_singleton (xs a : List Char) :
    List.intercalate xs [a] = a := by
  simp [List.intercalate, List.intersperse]

/-- `splitCharGo` on separator-free input. -/
theorem splitCharGo_no_sep (sep : Char) (x : List Char) :
    ∀ acc, sep ∉ x → splitCharGo sep x acc = [acc.reverse ++ x] := by
  induction x with
  | nil => intro acc _; simp [splitCharGo]
  | cons c cs ih =>
    intro acc h
    have hc : ¬ c = sep := fun he => h (he ▸ List.mem_cons_self c cs)
    rw [splitCharGo, if_neg hc, ih (c :: acc) fun hm => h (List.mem_cons_of_mem c hm)]
    simp

/-- `splitCharGo` at the first separator. -/
theorem splitCharGo_sep (sep : Char) (x : List Char) :
    ∀ acc rest, sep ∉ x →
      splitCharGo sep (x ++ sep :: rest) acc =
        (acc.reverse ++ x) :: splitCharGo sep rest [] := by
  induction x with
  | nil => intro acc rest _; simp [splitCharGo]
  | cons c cs ih =>
    intro acc rest h
    have hc : ¬ c = sep := fun he => h (he ▸ List.mem_cons_self c cs)
    rw [List.cons_append, splitCharGo, if_neg hc,
      ih (c :: acc) rest fun hm => h (List.mem_cons_of_mem c hm)]
    simp

/-- `splitChar` undoes `intercalate` on separator-free pieces. -/
theorem splitChar_intercalate (sep : Char) (chs : List (List Char)) :
    chs ≠ [] → (∀ p ∈ chs, sep ∉ p) →
      splitChar sep (List.intercalate [sep] chs) = chs := by
  induction chs with
  | nil => intro h _; exact absurd rfl h
  | cons a l ih =>
    intro _ h
    cases l with
    | nil =>
      rw [intercalate_singleton]
      unfold splitChar
      rw [splitCharGo_no_sep sep a [] (h a (List.mem_cons_self a []))]
      rfl
    | cons b l' =>
      rw [intercalate_cons_cons, List.append_assoc]
      unfold splitChar
      rw [List.singleton_append,
        splitCharGo_sep sep a [] _ (h a (List.mem_cons_self a _))]
      have := ih (by simp) fun p hp => h p (List.mem_cons_of_mem a hp)
      unfold splitChar at this
      rw [this]
      rfl

/-- Characters of `quote_plus` output are safe, `+`, or `%`. -/
theorem quote_mem (s : List Char) :
    ∀ c ∈ quote_plus s, alwaysSafe c = true ∨ c = '+' ∨ c = '%' := by
  intro c hc
  unfold quote_plus at hc
  rw [List.mem_flatMap] at hc
  obtain ⟨e, _, hc⟩ := hc
  exact quotePlusChar_mem e c hc

/-- `quote_plus` output never contains a given reserved character. -/
theorem quote_not_mem (s : List Char) (r : Char)
    (hsafe : alwaysSafe r = false) (hplus : r ≠ '+') (hpct : r ≠ '%') :
    r ∉ quote_plus s := by
  intro hm
  rcases quote_mem s r hm with h | h | h
  · rw [hsafe] at h; exact absurd h (by decide)
  · exact hplus h
  · exact hpct h

/-- An encoded pair chunk is nonempty and free of reserved characters. -/
theorem chunk_ne_nil (kv : List Char × List Char) :
    quote_plus kv.1 ++ '=' :: quote_plus kv.2 ≠ [] := by
  simp

/-- `parse_qsl` inverts `urlencode`. -/
theorem parse_qsl_urlencode (pairs : List (List Char × List Char)) :
    parse_qsl (urlencode pairs) = pairs := by
  cases pairs with
  | nil => rfl
  | cons kv rest =>
    unfold parse_qsl urlencode
    have hamp : ∀ p ∈ (kv :: rest).map
        (fun kv => quote_plus kv.1 ++ '=' :: quote_plus kv.2), '&' ∉ p := by
      intro p hp
      rw [List.mem_map] at hp
      obtain ⟨kv', _, hp⟩ := hp
      subst hp
      intro hm
      rw [List.mem_append] at hm
      rcases hm with hm | hm
      · exact quote_not_mem kv'.1 '&' (by decide) (by decide) (by decide) hm
      · rw [List.mem_cons] at hm
        rcases hm with hm | hm
        · exact absurd hm (by decide)
        · exact quote_not_mem kv'.2 '&' (by decide) (by decide) (by decide) hm
    have hqs : List.intercalate ['&'] ((kv :: rest).map
        (fun kv => quote_plus kv.1 ++ '=' :: quote_plus kv.2)) ≠ [] := by
      cases rest with
      | nil =>
        rw [List.map_cons, List.map_nil, intercalate_singleton]
        exact chunk_ne_nil kv
      | cons kv2 rest2 =>
        rw [List.map_cons, List.map_cons, intercalate_cons_cons]
        simp
    rw [if_neg (by simp only [List.isEmpty_eq_true]; exact hqs)]
    rw [splitChar_intercalate '&' _ (by simp) hamp]
    rw [List.filter_eq_self.mpr (by
      intro a ha
      rw [List.mem_map] at ha
      obtain ⟨kv', _, ha⟩ := ha
      subst ha
      simp only [Bool.not_eq_true']
      rw [List.isEmpty_eq_false]
      exact chunk_ne_nil kv')]
    rw [List.map_map]
    have hpoint : ∀ kv' : List Char × List Char,
        (fun nv =>
          match splitFirst '=' nv with
          | some p => (unquote (plusToSpace p.1), unquote (plusToSpace p.2))
          | none => (unquote (plusToSpace nv), ([] : List Char)))
          (quote_plus kv'.1 ++ '=' :: quote_plus kv'.2) = kv' := by
      intro kv'
      have hsp : splitFirst '=' (quote_plus kv'.1 ++ '=' :: quote_plus kv'.2) =
          some (quote_plus kv'.1, quote_plus kv'.2) :=
        splitFirst_append '=' _ _
          (quote_not_mem kv'.1 '=' (by decide) (by decide) (by decide))
      show (match splitFirst '=' (quote_plus kv'.1 ++ '=' :: quote_plus kv'.2) with
        | some p => (unquote (plusToSpace p.1), unquote (plusToSpace p.2))
        | none => (unquote (plusToSpace _), ([] : List Char))) = kv'
      rw [hsp]
      show (unquote (plusToSpace (quote_plus kv'.1)),
        unquote (plusToSpace (quote_plus kv'.2))) = kv'
      rw [unquote_pts_quote, unquote_pts_quote]
    calc (kv :: rest).map _ = (kv :: rest).map id :=
          List.map_congr_left fun x _ => hpoint x
      _ = kv :: rest := List.map_id _

/-! ### C8 helper lemmas: scheme parsing and `urlsplit` structure -/

/-- The head of a `dropWhile` result fails the predicate. -/
theorem head_dropWhile_not (p : Char → Bool) (l : List Char) (c : Char)
    (t : List Char) (h : l.dropWhile p = c :: t) : p c = false := by
  induction l with
  | nil => simp [List.dropWhile] at h
  | cons x xs ih =>
    rw [List.dropWhile_cons] at h
    split_ifs at h with hx
    · exact ih h
    · rw [List.cons_eq_cons] at h
      rw [← h.1]
      exact Bool.not_eq_true _ ▸ (by simpa using hx)

/-- `parseScheme` rejects a URL whose first character is not a letter. -/
theorem parseScheme_not_alpha (c : Char) (cs : List Char)
    (h : c.isAlpha = false) : parseScheme (c :: cs) = ([], c :: cs) := by
  unfold parseScheme
  cases hsp : splitFirst ':' (c :: cs) with
  | none => rfl
  | some p =>
    obtain ⟨b, a⟩ := p
    obtain ⟨hl, -⟩ := splitFirst_eq_some ':' _ b a hsp
    cases hb : b with
    | nil => rfl
    | cons c' rest =>
      subst hb
      rw [List.cons_append, List.cons_eq_cons] at hl
      rw [hl.1] at h
      simp only []
      rw [if_neg (by rw [h]; simp)]

/-- `parseScheme` accepts a well-formed scheme and lowercases it. -/
theorem parseScheme_valid (c : Char) (cs rest0 : List Char)
    (halpha : c.isAlpha = true) (hsc : cs.all isSchemeChar = true)
    (hcolon : ':' ∉ c :: cs) :
    parseScheme ((c :: cs) ++ ':' :: rest0) = (toLowerList (c :: cs), rest0) := by
  unfold parseScheme
  rw [splitFirst_append ':' (c :: cs) rest0 hcolon]
  simp only []
  rw [if_pos (by rw [halpha, hsc]; rfl)]

/-- An empty parsed scheme leaves the URL untouched. -/
theorem parseScheme_fst_nil (url : List Char)
    (h : (parseScheme url).1 = []) : parseScheme url = ([], url) := by
  unfold parseScheme at h ⊢
  cases hsp : splitFirst ':' url with
  | none => rfl
  | some p =>
    obtain ⟨b, a⟩ := p
    rw [hsp] at h
    cases hb : b with
    | nil => rfl
    | cons c' rest =>
      subst hb
      simp only [] at h ⊢
      by_cases hc : (c'.isAlpha && rest.all isSchemeChar) = true
      · rw [if_pos hc] at h
        simp [toLowerList] at h
      · rw [if_neg hc] at h ⊢

/-- Shape of a successfully parsed scheme: nonempty, letter-led,
scheme characters, already lowercase. -/
theorem parseScheme_shape (url : List Char) :
    (parseScheme url).1 = [] ∨
      ∃ c cs, (parseScheme url).1 = c :: cs ∧ c.isAlpha = true ∧
        cs.all isSchemeChar = true ∧
        toLowerList (parseScheme url).1 = (parseScheme url).1 := by
  unfold parseScheme
  cases hsp : splitFirst ':' url with
  | none => exact Or.inl rfl
  | some p =>
    obtain ⟨b, a⟩ := p
    cases hb : b with
    | nil => exact Or.inl rfl
    | cons c' rest =>
      simp only []
      by_cases hc : (c'.isAlpha && rest.all isSchemeChar) = true
      · rw [if_pos hc]
        rw [Bool.and_eq_true] at hc
        refine Or.inr ⟨pyToLower c', toLowerList rest, rfl,
          pyToLower_isAlpha c' hc.1, ?_, ?_⟩
        · rw [List.all_eq_true] at hc ⊢
          intro d hd
          rw [toLowerList, List.mem_map] at hd
          obtain ⟨e, he, hd⟩ := hd
          rw [← hd]
          exact pyToLower_isSchemeChar e (hc.2 e he)
        · show toLowerList (toLowerList (c' :: rest)) = _
          rw [toLowerList_idem]
      · rw [if_neg hc]
        exact Or.inl rfl

/-- A scheme accepted by `parseScheme` contains no `:`, `/`, `?` or `#`. -/
theorem scheme_chars_clean (c : Char) (cs : List Char)
    (halpha : c.isAlpha = true) (hsc : cs.all isSchemeChar = true) :
    ∀ d ∈ c :: cs, d ≠ ':' ∧ d ≠ '/' ∧ d ≠ '?' ∧ d ≠ '#' := by
  intro d hd
  rw [List.mem_cons] at hd
  have hfacts : (65 ≤ d.toNat ∧ d.toNat ≤ 90) ∨ (97 ≤ d.toNat ∧ d.toNat ≤ 122) ∨
      (48 ≤ d.toNat ∧ d.toNat ≤ 57) ∨
      d.toNat = 43 ∨ d.toNat = 45 ∨ d.toNat = 46 := by
    rcases hd with hd | hd
    · subst hd
      rw [isAlpha_iff] at halpha
      rcases halpha with h | h
      · exact Or.inl h
      · exact Or.inr (Or.inl h)
    · rw [List.all_eq_true] at hsc
      exact (isSchemeChar_iff d).mp (hsc d hd)
  refine ⟨?_, ?_, ?_, ?_⟩ <;>
    · intro he
      subst he
      revert hfacts
      decide

/-- The scheme field of `urlsplit`. -/
theorem urlsplit_scheme (u : List Char) :
    (urlsplit u).scheme = (parseScheme (removeUnsafeBytes u)).1 := rfl

/-- The netloc field of `urlsplit`. -/
theorem urlsplit_netloc (u : List Char) :
    (urlsplit u).netloc =
      (urlsplitNetlocSplit (parseScheme (removeUnsafeBytes u)).2).1 := rfl

/-- The path field of `urlsplit`. -/
theorem urlsplit_path (u : List Char) :
    (urlsplit u).path =
      (urlsplitQuerySplit (urlsplitFragSplit
        (urlsplitNetlocSplit (parseScheme (removeUnsafeBytes u)).2).2).1).1 := rfl

/-- The query field of `urlsplit`. -/
theorem urlsplit_query (u : List Char) :
    (urlsplit u).query =
      (urlsplitQuerySplit (urlsplitFragSplit
        (urlsplitNetlocSplit (parseScheme (removeUnsafeBytes u)).2).2).1).2 := rfl

/-- The fragment field of `urlsplit`. -/
theorem urlsplit_fragment (u : List Char) :
    (urlsplit u).fragment =
      (urlsplitFragSplit
        (urlsplitNetlocSplit (parseScheme (removeUnsafeBytes u)).2).2).2 := rfl

/-- The netloc split in the `//` case. -/
theorem netlocSplit_pos (url2 : List Char) (h : url2.take 2 = ['/', '/']) :
    urlsplitNetlocSplit url2 =
      ((url2.drop 2).takeWhile (fun c => !isNetlocDelim c),
        (url2.drop 2).dropWhile (fun c => !isNetlocDelim c)) := by
  unfold urlsplitNetlocSplit
  rw [if_pos h]

/-- The netloc split without `//`. -/
theorem netlocSplit_neg (url2 : List Char) (h : ¬ url2.take 2 = ['/', '/']) :
    urlsplitNetlocSplit url2 = ([], url2) := by
  unfold urlsplitNetlocSplit
  rw [if_neg h]

/-- The fragment partition without a `#`. -/
theorem fragSplit_none (url3 : List Char) (h : '#' ∉ url3) :
    urlsplitFragSplit url3 = (url3, []) := by
  unfold urlsplitFragSplit
  rw [(splitFirst_eq_none_iff '#' url3).mpr h]

/-- The fragment partition at the first `#`. -/
theorem fragSplit_some (url3 b a : List Char)
    (h : splitFirst '#' url3 = some (b, a)) :
    urlsplitFragSplit url3 = (b, a) := by
  unfold urlsplitFragSplit
  rw [h]

/-- The part before the `#` is a `#`-free prefix. -/
theorem fragSplit_decomp (url3 : List Char) :
    ∃ t, url3 = (urlsplitFragSplit url3).1 ++ t ∧
      '#' ∉ (urlsplitFragSplit url3).1 := by
  unfold urlsplitFragSplit
  cases hsp : splitFirst '#' url3 with
  | none =>
    exact ⟨[], by simp, (splitFirst_eq_none_iff '#' url3).mp hsp⟩
  | some p =>
    obtain ⟨hl, hn⟩ := splitFirst_eq_some '#' url3 p.1 p.2 (by rw [hsp])
    exact ⟨'#' :: p.2, hl, hn⟩

/-- The query partition without a `?`. -/
theorem querySplit_none (url4 : List Char) (h : '?' ∉ url4) :
    urlsplitQuerySplit url4 = (url4, []) := by
  unfold urlsplitQuerySplit
  rw [(splitFirst_eq_none_iff '?' url4).mpr h]

/-- The query partition at the first `?`. -/
theorem querySplit_some (url4 b a : List Char)
    (h : splitFirst '?' url4 = some (b, a)) :
    urlsplitQuerySplit url4 = (b, a) := by
  unfold urlsplitQuerySplit
  rw [h]

/-- The part before the `?` is a `?`-free prefix. -/
theorem querySplit_decomp (url4 : List Char) :
    ∃ t, url4 = (urlsplitQuerySplit url4).1 ++ t ∧
      '?' ∉ (urlsplitQuerySplit url4).1 := by
  unfold urlsplitQuerySplit
  cases hsp : splitFirst '?' url4 with
  | none =>
    exact ⟨[], by simp, (splitFirst_eq_none_iff '?' url4).mp hsp⟩
  | some p =>
    obtain ⟨hl, hn⟩ := splitFirst_eq_some '?' url4 p.1 p.2 (by rw [hsp])
    exact ⟨'?' :: p.2, hl, hn⟩

/-- The remainder returned by `parseScheme` is part of the input. -/
theorem parseScheme_snd_subset (url : List Char) :
    ∀ c ∈ (parseScheme url).2, c ∈ url := by
  unfold parseScheme
  cases hsp : splitFirst ':' url with
  | none => exact fun c hc => hc
  | some p =>
    obtain ⟨b, a⟩ := p
    obtain ⟨hl, -⟩ := splitFirst_eq_some ':' url b a hsp
    cases hb : b with
    | nil => exact fun c hc => hc
    | cons c' rest =>
      simp only []
      split_ifs with hc
      · intro c hc2
        rw [hl, hb]
        simp [hc2]
      · exact fun c hc => hc

/-- Scheme characters come from the input, lowercased. -/
theorem parseScheme_fst_subset (url : List Char) :
    ∀ c ∈ (parseScheme url).1, ∃ d ∈ url, c = pyToLower d := by
  unfold parseScheme
  cases hsp : splitFirst ':' url with
  | none => simp
  | some p =>
    obtain ⟨b, a⟩ := p
    obtain ⟨hl, -⟩ := splitFirst_eq_some ':' url b a hsp
    cases hb : b with
    | nil => simp
    | cons c' rest =>
      simp only []
      split_ifs with hc
      · intro c hc2
        rw [toLowerList, List.mem_map] at hc2
        obtain ⟨d, hd, hc2⟩ := hc2
        refine ⟨d, ?_, hc2.symm⟩
        rw [hl, hb]
        rw [List.mem_cons] at hd
        simp only [List.cons_append, List.mem_cons, List.mem_append]
        rcases hd with hd | hd
        · exact Or.inl hd
        · exact Or.inr (Or.inl hd)
      · simp

/-! ### C8 helper lemmas: unsafe-byte removal and clean outputs -/

/-- Characters surviving `removeUnsafeBytes` are not tab, CR or LF. -/
theorem removeUnsafeBytes_not_bad (u : List Char) :
    ∀ c ∈ removeUnsafeBytes u, ¬ (c = '\t' ∨ c = '\x0d' ∨ c = '\n') := by
  intro c hc
  unfold removeUnsafeBytes at hc
  rw [List.mem_filter] at hc
  have := hc.2
  simp only [Bool.not_eq_true'] at this
  intro h
  rcases h with h | h | h <;> subst h <;> simp at this

/-- `removeUnsafeBytes` output is empty or starts above `0x20`. -/
theorem removeUnsafeBytes_head (u : List Char) :
    removeUnsafeBytes u = [] ∨
      ∃ c t, removeUnsafeBytes u = c :: t ∧ 0x20 < c.toNat := by
  unfold removeUnsafeBytes
  cases hd : u.dropWhile (fun c => c.toNat ≤ 0x20) with
  | nil => exact Or.inl rfl
  | cons c t =>
    have hc : ¬ c.toNat ≤ 0x20 := by
      have := head_dropWhile_not _ u c t hd
      simpa using this
    have hcne : (!(decide (c = '\t') || decide (c = '\x0d') ||
        decide (c = '\n'))) = true := by
      simp only [Bool.not_eq_true', Bool.or_eq_false_iff,
        decide_eq_false_iff_not]
      refine ⟨⟨?_, ?_⟩, ?_⟩ <;>
        · intro he; rw [he] at hc; exact hc (by decide)
    refine Or.inr ⟨c, t.filter
      (fun c => !(c = '\t' || c = '\x0d' || c = '\n')), ?_, by omega⟩
    rw [List.filter_cons, if_pos hcne]

/-- `removeUnsafeBytes` fixes a clean list with a printable head. -/
theorem removeUnsafeBytes_eq_self (l : List Char)
    (h1 : ∀ c ∈ l, ¬ (c = '\t' ∨ c = '\x0d' ∨ c = '\n'))
    (h2 : l = [] ∨ ∃ c t, l = c :: t ∧ 0x20 < c.toNat) :
    removeUnsafeBytes l = l := by
  unfold removeUnsafeBytes
  have hdrop : l.dropWhile (fun c => c.toNat ≤ 0x20) = l := by
    rcases h2 with h2 | ⟨c, t, h2, hc⟩
    · rw [h2]; rfl
    · rw [h2, List.dropWhile_cons, if_neg (by simp; omega)]
  rw [hdrop, List.filter_eq_self]
  intro c hc
  have := h1 c hc
  simp only [Bool.not_eq_true']
  simp only [not_or] at this
  simp [this.1, this.2.1, this.2.2]

/-- `pyToLower` preserves not being tab, CR or LF. -/
theorem pyToLower_not_bad (c : Char)
    (h : ¬ (c = '\t' ∨ c = '\x0d' ∨ c = '\n')) :
    ¬ (pyToLower c = '\t' ∨ pyToLower c = '\x0d' ∨ pyToLower c = '\n') := by
  simp only [char_eq_iff, pyToLower_toNat] at h ⊢
  split_ifs with h2
  · show ¬ (c.toNat + 32 = 9 ∨ c.toNat + 32 = 13 ∨ c.toNat + 32 = 10)
    omega
  · exact h

/-- Characters of an `urlencode` output are safe, `+`, `%`, `=` or `&`. -/
theorem urlencode_mem (pairs : List (List Char × List Char)) :
    ∀ c ∈ urlencode pairs,
      alwaysSafe c = true ∨ c = '+' ∨ c = '%' ∨ c = '=' ∨ c = '&' := by
  induction pairs with
  | nil =>
    intro c hc
    rw [show urlencode [] = [] from rfl] at hc
    exact absurd hc (List.not_mem_nil c)
  | cons kv rest ih =>
    intro c hc
    unfold urlencode at hc
    rw [List.map_cons] at hc
    cases rest with
    | nil =>
      rw [List.map_nil, intercalate_singleton, List.mem_append] at hc
      rcases hc with hc | hc
      · rcases quote_mem kv.1 c hc with h | h | h
        · exact Or.inl h
        · exact Or.inr (Or.inl h)
        · exact Or.inr (Or.inr (Or.inl h))
      · rw [List.mem_cons] at hc
        rcases hc with hc | hc
        · exact Or.inr (Or.inr (Or.inr (Or.inl hc)))
        · rcases quote_mem kv.2 c hc with h | h | h
          · exact Or.inl h
          · exact Or.inr (Or.inl h)
          · exact Or.inr (Or.inr (Or.inl h))
    | cons kv2 rest2 =>
      rw [List.map_cons, intercalate_cons_cons, List.append_assoc,
        List.mem_append] at hc
      rcases hc with hc | hc
      · rw [List.mem_append] at hc
        rcases hc with hc | hc
        · rcases quote_mem kv.1 c hc with h | h | h
          · exact Or.inl h
          · exact Or.inr (Or.inl h)
          · exact Or.inr (Or.inr (Or.inl h))
        · rw [List.mem_cons] at hc
          rcases hc with hc | hc
          · exact Or.inr (Or.inr (Or.inr (Or.inl hc)))
          · rcases quote_mem kv.2 c hc with h | h | h
            · exact Or.inl h
            · exact Or.inr (Or.inl h)
            · exact Or.inr (Or.inr (Or.inl h))
      · rw [List.singleton_append, List.mem_cons] at hc
        rcases hc with hc | hc
        · exact Or.inr (Or.inr (Or.inr (Or.inr hc)))
        · exact ih c (by
            unfold urlencode
            rw [List.map_cons]
            exact hc)

/-- Query characters are printable ASCII and avoid URL delimiters. -/
theorem urlencode_char_facts (pairs : List (List Char × List Char)) :
    ∀ c ∈ urlencode pairs,
      0x20 < c.toNat ∧ c.toNat < 0x80 ∧ c ≠ ':' ∧ c ≠ '/' ∧ c ≠ '?' ∧
        c ≠ '#' ∧ ¬ (c = '\t' ∨ c = '\x0d' ∨ c = '\n') := by
  intro c hc
  rcases urlencode_mem pairs c hc with h | h | h | h | h
  · rw [alwaysSafe_iff] at h
    refine ⟨by omega, by omega, ?_, ?_, ?_, ?_, ?_⟩
    · intro he; subst he; revert h; decide
    · intro he; subst he; revert h; decide
    · intro he; subst he; revert h; decide
    · intro he; subst he; revert h; decide
    · intro hbad
      rcases hbad with hb | hb | hb <;> (subst hb; revert h; decide)
  · subst h; decide
  · subst h; decide
  · subst h; decide
  · subst h; decide

/-- A singleton `take 1` exposes the head. -/
theorem take1_eq_singleton (l : List Char) (c : Char) (h : l.take 1 = [c]) :
    ∃ t, l = c :: t := by
  cases l with
  | nil => simp at h
  | cons x t =>
    rw [show List.take 1 (x :: t) = [x] from rfl] at h
    rw [List.cons_eq_cons] at h
    exact ⟨t, by rw [h.1]⟩

/-- First-occurrence decompositions at the same separator agree. -/
theorem first_split_unique (c : Char) (b a b' a' : List Char)
    (h : b ++ c :: a = b' ++ c :: a') (hb : c ∉ b) (hb' : c ∉ b') :
    b = b' ∧ a = a' := by
  have h1 := splitFirst_append c b a hb
  have h2 := splitFirst_append c b' a' hb'
  rw [h, h2] at h1
  rw [Option.some_inj, Prod.mk.injEq] at h1
  exact ⟨h1.1.symm, h1.2.symm⟩

/-- Appending a query part cannot create a leading `//`. -/
theorem take2_append_ne (X Y : List Char) (hx : X.take 2 ≠ ['/', '/'])
    (hy : Y = [] ∨ ∃ t, Y = '?' :: t) :
    (X ++ Y).take 2 ≠ ['/', '/'] := by
  match X with
  | [] =>
    rcases hy with hy | ⟨t, hy⟩ <;> subst hy
    · simp
    · intro h
      rw [List.nil_append] at h
      cases t with
      | nil =>
        rw [show List.take 2 ['?'] = ['?'] from rfl] at h
        simp at h
      | cons y t2 =>
        rw [show List.take 2 ('?' :: y :: t2) = ['?', y] from rfl] at h
        rw [List.cons_eq_cons] at h
        exact absurd h.1 (by decide)
  | [x] =>
    intro h
    rw [List.cons_append, List.nil_append] at h
    rcases hy with hy | ⟨t, hy⟩ <;> subst hy
    · rw [show List.take 2 [x] = [x] from rfl] at h
      simp at h
    · rw [show List.take 2 (x :: '?' :: t) = [x, '?'] from rfl] at h
      rw [List.cons_eq_cons] at h
      have := h.2
      rw [List.cons_eq_cons] at this
      exact absurd this.1 (by decide)
  | x1 :: x2 :: t =>
    intro h
    rw [List.cons_append, List.cons_append,
      show ∀ z : List Char, List.take 2 (x1 :: x2 :: z) = [x1, x2] from
        fun z => rfl] at h
    exact hx (h ▸ rfl)

/-- An `urlunsplit` output built from well-formed, already-canonical
parts re-splits to the same parts (up to the `/`-prepend on the path)
and re-joins to itself: `canonicalise_url` fixes it. -/
theorem canonicalise_url_unsplit_fixed (p : SplitResult)
    (hfrag : p.fragment = [])
    (hscheme : p.scheme = [] ∨ ∃ c cs, p.scheme = c :: cs ∧ c.isAlpha = true ∧
      cs.all isSchemeChar = true ∧ toLowerList p.scheme = p.scheme)
    (hnet : ∀ c ∈ p.netloc, isNetlocDelim c = false)
    (hpath : ∀ c ∈ p.path, c ≠ '#' ∧ c ≠ '?')
    (hpathno : p.netloc = [] → p.path.take 2 ≠ ['/', '/'])
    (hnoscheme : p.scheme = [] → p.netloc = [] → ∀ b a, ':' ∉ b →
      p.path = b ++ ':' :: a →
      b = [] ∨ ∃ c cs, b = c :: cs ∧
        (c.isAlpha = false ∨ cs.all isSchemeChar = false))
    (hclean : removeUnsafeBytes (urlunsplit p) = urlunsplit p)
    (hquery : ∃ pairs, p.query = urlencode pairs ∧
      ∀ kv ∈ pairs, isUtmKey kv.1 = false) :
    canonicalise_url (urlunsplit p) = urlunsplit p := by
  obtain ⟨pairs, hqe, hqutm⟩ := hquery
  have hqfacts : ∀ c ∈ p.query,
      0x20 < c.toNat ∧ c.toNat < 0x80 ∧ c ≠ ':' ∧ c ≠ '/' ∧ c ≠ '?' ∧
        c ≠ '#' ∧ ¬ (c = '\t' ∨ c = '\x0d' ∨ c = '\n') := by
    intro c hc
    rw [hqe] at hc
    exact urlencode_char_facts pairs c hc
  obtain ⟨Q, hQdef⟩ : ∃ Q, Q =
      (if p.query = [] then ([] : List Char) else '?' :: p.query) := ⟨_, rfl⟩
  have hQshape : (Q = [] ∧ p.query = []) ∨
      (Q = '?' :: p.query ∧ p.query ≠ []) := by
    rw [hQdef]
    split_ifs with h
    · exact Or.inl ⟨rfl, h⟩
    · exact Or.inr ⟨rfl, h⟩
  have hQshape' : Q = [] ∨ ∃ t, Q = '?' :: t := by
    rcases hQshape with ⟨h, -⟩ | ⟨h, -⟩
    · exact Or.inl h
    · exact Or.inr ⟨p.query, h⟩
  have hQhash : '#' ∉ Q := by
    rcases hQshape with ⟨h, -⟩ | ⟨h, -⟩ <;> rw [h]
    · simp
    · intro hm
      rw [List.mem_cons] at hm
      rcases hm with hm | hm
      · exact absurd hm (by decide)
      · exact (hqfacts '#' hm).2.2.2.2.2.1 rfl
  have hQcolon : ':' ∉ Q := by
    rcases hQshape with ⟨h, -⟩ | ⟨h, -⟩ <;> rw [h]
    · simp
    · intro hm
      rw [List.mem_cons] at hm
      rcases hm with hm | hm
      · exact absurd hm (by decide)
      · exact (hqfacts ':' hm).2.2.1 rfl
  have hqstable : urlencode ((parse_qsl p.query).filter
      (fun kv => !isUtmKey kv.1)) = p.query := by
    rw [hqe, parse_qsl_urlencode, List.filter_eq_self.mpr
      (fun kv hkv => by rw [hqutm kv hkv]; rfl)]
  have hfragne : ¬ p.fragment ≠ [] := fun hne => hne hfrag
  by_cases hC : p.netloc ≠ [] ∨ (p.scheme ≠ [] ∧ p.scheme ∈ usesNetloc ∧
      p.path.take 2 ≠ ['/', '/'])
  · -- the netloc branch of urlunsplit
    obtain ⟨P2, hP2def⟩ : ∃ P2, P2 =
        (if p.path ≠ [] ∧ p.path.take 1 ≠ ['/'] then '/' :: p.path
         else p.path) := ⟨_, rfl⟩
    have hP2shape : P2 = [] ∨ ∃ t, P2 = '/' :: t := by
      rw [hP2def]
      split_ifs with h
      · exact Or.inr ⟨p.path, rfl⟩
      · rw [not_and_or, not_not] at h
        rcases h with h | h
        · rw [h]
          exact Or.inl rfl
        · rw [not_not] at h
          obtain ⟨t, ht⟩ := take1_eq_singleton p.path '/' h
          rw [ht]
          exact Or.inr ⟨t, rfl⟩
    have hP2mem : ∀ c ∈ P2, c = '/' ∨ c ∈ p.path := by
      rw [hP2def]
      split_ifs with h
      · intro c hc
        rw [List.mem_cons] at hc
        exact hc
      · exact fun c hc => Or.inr hc
    have hP2q : '?' ∉ P2 := by
      intro hm
      rcases hP2mem '?' hm with h | h
      · exact absurd h (by decide)
      · exact (hpath '?' h).2 rfl
    obtain ⟨core, hcore⟩ : ∃ z, z = p.netloc ++ (P2 ++ Q) := ⟨_, rfl⟩
    obtain ⟨B, hBdef⟩ : ∃ B, B = '/' :: '/' :: (p.netloc ++ P2) := ⟨_, rfl⟩
    obtain ⟨S, hSdef⟩ : ∃ S, S =
        (if p.scheme ≠ [] then p.scheme ++ ':' :: B else B) := ⟨_, rfl⟩
    have hBQ : B ++ Q = '/' :: '/' :: core := by
      rw [hBdef, hcore]
      simp [List.cons_append, List.append_assoc]
    have hout : urlunsplit p = S ++ Q := by
      simp only [urlunsplit]
      rw [if_pos hC, ← hP2def, if_neg hfragne]
      by_cases hq : p.query = []
      · rw [if_neg (fun hne => hne hq), hQdef, if_pos hq, List.append_nil,
          hSdef, hBdef]
        simp [List.cons_append, List.append_assoc]
      · rw [if_pos hq, hQdef, if_neg hq, hSdef, hBdef]
        simp [List.cons_append, List.append_assoc]
    have hps : parseScheme (urlunsplit p) = (p.scheme, B ++ Q) := by
      rcases hscheme with hnil | ⟨c, cs, hsch, ha, hsc, hlow⟩
      · rw [hout, hSdef, if_neg (fun hne => hne hnil), hBQ,
          parseScheme_not_alpha '/' _ (by decide), hnil]
      · have hsne : p.scheme ≠ [] := by rw [hsch]; simp
        rw [hout, hSdef, if_pos hsne,
          show (p.scheme ++ ':' :: B) ++ Q = p.scheme ++ ':' :: (B ++ Q) by
            simp, hsch,
          parseScheme_valid c cs (B ++ Q) ha hsc (fun hm =>
            (scheme_chars_clean c cs ha hsc ':' hm).1 rfl),
          ← hsch, hlow]
    have hru : removeUnsafeBytes (urlunsplit p) = urlunsplit p := hclean
    have hnlsplit : urlsplitNetlocSplit (B ++ Q) = (p.netloc, P2 ++ Q) := by
      rw [hBQ, netlocSplit_pos ('/' :: '/' :: core) rfl,
        show List.drop 2 ('/' :: '/' :: core) = core from rfl, hcore,
        takeWhile_append_all _ p.netloc _
          (fun c hc => by rw [hnet c hc]; rfl),
        dropWhile_append_all _ p.netloc _
          (fun c hc => by rw [hnet c hc]; rfl)]
      have hstop : (P2 ++ Q).takeWhile (fun c => !isNetlocDelim c) = [] ∧
          (P2 ++ Q).dropWhile (fun c => !isNetlocDelim c) = P2 ++ Q := by
        rcases hP2shape with h | ⟨t, h⟩
        · rw [h, List.nil_append]
          rcases hQshape' with h2 | ⟨t2, h2⟩ <;> rw [h2]
          · exact ⟨rfl, rfl⟩
          · exact ⟨by rw [List.takeWhile_cons, if_neg (by decide)],
              by rw [List.dropWhile_cons, if_neg (by decide)]⟩
        · rw [h, List.cons_append]
          exact ⟨by rw [List.takeWhile_cons, if_neg (by decide)],
            by rw [List.dropWhile_cons, if_neg (by decide)]⟩
      rw [hstop.1, hstop.2, List.append_nil]
    have hpathhash : '#' ∉ P2 ++ Q := by
      intro hm
      rw [List.mem_append] at hm
      rcases hm with hm | hm
      · rcases hP2mem '#' hm with h | h
        · exact absurd h (by decide)
        · exact (hpath '#' h).1 rfl
      · exact hQhash hm
    have hfr : urlsplitFragSplit (P2 ++ Q) = (P2 ++ Q, []) :=
      fragSplit_none _ hpathhash
    have hqsplit : urlsplitQuerySplit (P2 ++ Q) = (P2, p.query) := by
      rcases hQshape with ⟨hQe, hq⟩ | ⟨hQe, hq⟩
      · rw [hQe, List.append_nil, querySplit_none _ hP2q, hq]
      · rw [hQe, querySplit_some _ P2 p.query
          (splitFirst_append '?' P2 p.query hP2q)]
    have e_scheme : (urlsplit (urlunsplit p)).scheme = p.scheme := by
      rw [urlsplit_scheme, hru, hps]
    have e_netloc : (urlsplit (urlunsplit p)).netloc = p.netloc := by
      rw [urlsplit_netloc, hru, hps]
      show (urlsplitNetlocSplit (B ++ Q)).1 = p.netloc
      rw [hnlsplit]
    have e_path : (urlsplit (urlunsplit p)).path = P2 := by
      rw [urlsplit_path, hru, hps]
      show (urlsplitQuerySplit (urlsplitFragSplit
        (urlsplitNetlocSplit (B ++ Q)).2).1).1 = P2
      rw [hnlsplit]
      show (urlsplitQuerySplit (urlsplitFragSplit (P2 ++ Q)).1).1 = P2
      rw [hfr]
      show (urlsplitQuerySplit (P2 ++ Q)).1 = P2
      rw [hqsplit]
    have e_query : (urlsplit (urlunsplit p)).query = p.query := by
      rw [urlsplit_query, hru, hps]
      show (urlsplitQuerySplit (urlsplitFragSplit
        (urlsplitNetlocSplit (B ++ Q)).2).1).2 = p.query
      rw [hnlsplit]
      show (urlsplitQuerySplit (urlsplitFragSplit (P2 ++ Q)).1).2 = p.query
      rw [hfr]
      show (urlsplitQuerySplit (P2 ++ Q)).2 = p.query
      rw [hqsplit]
    show urlunsplit
      { scheme := (urlsplit (urlunsplit p)).scheme
        netloc := (urlsplit (urlunsplit p)).netloc
        path := (urlsplit (urlunsplit p)).path
        query := urlencode (((parse_qsl (urlsplit (urlunsplit p)).query)).filter
          (fun kv => !isUtmKey kv.1))
        fragment := [] } = urlunsplit p
    rw [e_scheme, e_netloc, e_path, e_query, hqstable, hout]
    have hC2 : p.netloc ≠ [] ∨ (p.scheme ≠ [] ∧ p.scheme ∈ usesNetloc ∧
        P2.take 2 ≠ ['/', '/']) := by
      rcases hC with h | ⟨h1, h2, h3⟩
      · exact Or.inl h
      · refine Or.inr ⟨h1, h2, ?_⟩
        rw [hP2def]
        split_ifs with h4
        · intro he
          rw [show List.take 2 ('/' :: p.path) = '/' :: p.path.take 1 from
            rfl] at he
          rw [List.cons_eq_cons] at he
          exact h4.2 he.2
        · exact h3
    have hprep : ¬ (P2 ≠ [] ∧ P2.take 1 ≠ ['/']) := by
      rcases hP2shape with h | ⟨t, h⟩
      · rw [h]; simp
      · rw [h]
        intro hcon
        exact hcon.2 rfl
    simp only [urlunsplit]
    rw [if_pos hC2, if_neg hprep, if_neg (show ¬ ([] : List Char) ≠ [] by simp)]
    by_cases hq : p.query = []
    · rw [if_neg (fun hne => hne hq), hQdef, if_pos hq, List.append_nil,
        hSdef, hBdef]
      simp [List.cons_append, List.append_assoc]
    · rw [if_pos hq, hQdef, if_neg hq, hSdef, hBdef]
      simp [List.cons_append, List.append_assoc]
  · -- the plain branch of urlunsplit
    rw [not_or, not_not] at hC
    obtain ⟨hnetnil, hC2false⟩ := hC
    have hptake : p.path.take 2 ≠ ['/', '/'] := hpathno hnetnil
    have hpathq : '?' ∉ p.path := fun hm => (hpath '?' hm).2 rfl
    have hpathhash0 : '#' ∉ p.path := fun hm => (hpath '#' hm).1 rfl
    obtain ⟨S, hSdef⟩ : ∃ S, S =
        (if p.scheme ≠ [] then p.scheme ++ ':' :: p.path else p.path) :=
      ⟨_, rfl⟩
    have hCfull : ¬ (p.netloc ≠ [] ∨ (p.scheme ≠ [] ∧ p.scheme ∈ usesNetloc ∧
        p.path.take 2 ≠ ['/', '/'])) := by
      rw [not_or]
      exact ⟨fun h => h hnetnil, hC2false⟩
    have hout : urlunsplit p = S ++ Q := by
      simp only [urlunsplit]
      rw [if_neg hCfull, if_neg hfragne]
      by_cases hq : p.query = []
      · rw [if_neg (fun hne => hne hq), hQdef, if_pos hq, List.append_nil,
          hSdef]
      · rw [if_pos hq, hQdef, if_neg hq, hSdef]
    have hps : parseScheme (urlunsplit p) = (p.scheme, p.path ++ Q) := by
      rcases hscheme with hnil | ⟨c, cs, hsch, ha, hsc, hlow⟩
      · rw [hout, hSdef, if_neg (fun hne => hne hnil), hnil]
        cases hcol : splitFirst ':' (p.path ++ Q) with
        | none =>
          unfold parseScheme
          rw [hcol]
        | some pr =>
          obtain ⟨b, a⟩ := pr
          obtain ⟨hdec, hnb⟩ := splitFirst_eq_some ':' _ b a hcol
          have hcolpath : ':' ∈ p.path := by
            have hmem : ':' ∈ p.path ++ Q := by rw [hdec]; simp
            rw [List.mem_append] at hmem
            rcases hmem with hm | hm
            · exact hm
            · exact absurd hm hQcolon
          obtain ⟨b0, a0, hsp0⟩ : ∃ b0 a0,
              splitFirst ':' p.path = some (b0, a0) := by
            cases hx : splitFirst ':' p.path with
            | none =>
              exact absurd hcolpath ((splitFirst_eq_none_iff ':' p.path).mp hx)
            | some pr2 =>
              obtain ⟨b0x, a0x⟩ := pr2
              exact ⟨b0x, a0x, rfl⟩
          obtain ⟨hdec0, hnb0⟩ := splitFirst_eq_some ':' _ b0 a0 hsp0
          have hdec0' : p.path ++ Q = b0 ++ ':' :: (a0 ++ Q) := by
            rw [hdec0]
            simp
          obtain ⟨hb_eq, -⟩ :=
            first_split_unique ':' b a b0 (a0 ++ Q)
              (by rw [← hdec, ← hdec0']) hnb hnb0
          unfold parseScheme
          rw [hcol]
          rcases hnoscheme hnil hnetnil b0 a0 hnb0 hdec0 with hbnil |
            ⟨c, cs, hbc, hbad⟩
          · rw [hb_eq, hbnil]
          · rw [hb_eq, hbc]
            simp only []
            rw [if_neg (fun hcond => by
              rw [Bool.and_eq_true] at hcond
              rcases hbad with hbad | hbad
              · rw [hcond.1] at hbad; exact absurd hbad (by decide)
              · rw [hcond.2] at hbad; exact absurd hbad (by decide))]
      · have hsne : p.scheme ≠ [] := by rw [hsch]; simp
        rw [hout, hSdef, if_pos hsne,
          show (p.scheme ++ ':' :: p.path) ++ Q =
            p.scheme ++ ':' :: (p.path ++ Q) by simp, hsch,
          parseScheme_valid c cs (p.path ++ Q) ha hsc (fun hm =>
            (scheme_chars_clean c cs ha hsc ':' hm).1 rfl),
          ← hsch, hlow]
    have hru : removeUnsafeBytes (urlunsplit p) = urlunsplit p := hclean
    have hnlsplit : urlsplitNetlocSplit (p.path ++ Q) = ([], p.path ++ Q) :=
      netlocSplit_neg _ (take2_append_ne p.path Q hptake hQshape')
    have hpathhash : '#' ∉ p.path ++ Q := by
      intro hm
      rw [List.mem_append] at hm
      rcases hm with hm | hm
      · exact hpathhash0 hm
      · exact hQhash hm
    have hfr : urlsplitFragSplit (p.path ++ Q) = (p.path ++ Q, []) :=
      fragSplit_none _ hpathhash
    have hqsplit : urlsplitQuerySplit (p.path ++ Q) = (p.path, p.query) := by
      rcases hQshape with ⟨hQe, hq⟩ | ⟨hQe, hq⟩
      · rw [hQe, List.append_nil, querySplit_none _ hpathq, hq]
      · rw [hQe, querySplit_some _ p.path p.query
          (splitFirst_append '?' p.path p.query hpathq)]
    have e_scheme : (urlsplit (urlunsplit p)).scheme = p.scheme := by
      rw [urlsplit_scheme, hru, hps]
    have e_netloc : (urlsplit (urlunsplit p)).netloc = p.netloc := by
      rw [urlsplit_netloc, hru, hps]
      show (urlsplitNetlocSplit (p.path ++ Q)).1 = p.netloc
      rw [hnlsplit, hnetnil]
    have e_path : (urlsplit (urlunsplit p)).path = p.path := by
      rw [urlsplit_path, hru, hps]
      show (urlsplitQuerySplit (urlsplitFragSplit
        (urlsplitNetlocSplit (p.path ++ Q)).2).1).1 = p.path
      rw [hnlsplit]
      show (urlsplitQuerySplit (urlsplitFragSplit (p.path ++ Q)).1).1 = p.path
      rw [hfr]
      show (urlsplitQuerySplit (p.path ++ Q)).1 = p.path
      rw [hqsplit]
    have e_query : (urlsplit (urlunsplit p)).query = p.query := by
      rw [urlsplit_query, hru, hps]
      show (urlsplitQuerySplit (urlsplitFragSplit
        (urlsplitNetlocSplit (p.path ++ Q)).2).1).2 = p.query
      rw [hnlsplit]
      show (urlsplitQuerySplit (urlsplitFragSplit (p.path ++ Q)).1).2 = p.query
      rw [hfr]
      show (urlsplitQuerySplit (p.path ++ Q)).2 = p.query
      rw [hqsplit]
    show urlunsplit
      { scheme := (urlsplit (urlunsplit p)).scheme
        netloc := (urlsplit (urlunsplit p)).netloc
        path := (urlsplit (urlunsplit p)).path
        query := urlencode (((parse_qsl (urlsplit (urlunsplit p)).query)).filter
          (fun kv => !isUtmKey kv.1))
        fragment := [] } = urlunsplit p
    rw [e_scheme, e_netloc, e_path, e_query, hqstable, hout]
    simp only [urlunsplit]
    rw [if_neg hCfull, if_neg (show ¬ ([] : List Char) ≠ [] by simp)]
    by_cases hq : p.query = []
    · rw [if_neg (fun hne => hne hq), hQdef, if_pos hq, List.append_nil, hSdef]
    · rw [if_pos hq, hQdef, if_neg hq, hSdef]

/-- Path characters of a split URL avoid `#` and `?`. -/
theorem urlsplit_path_chars (u : List Char) :
    ∀ c ∈ (urlsplit u).path, c ≠ '#' ∧ c ≠ '?' := by
  intro c hc
  rw [urlsplit_path] at hc
  obtain ⟨t, hdec, hq⟩ := querySplit_decomp (urlsplitFragSplit
    (urlsplitNetlocSplit (parseScheme (removeUnsafeBytes u)).2).2).1
  obtain ⟨t2, hdec2, hh⟩ := fragSplit_decomp
    (urlsplitNetlocSplit (parseScheme (removeUnsafeBytes u)).2).2
  constructor
  · intro he
    subst he
    exact hh (by rw [hdec]; exact List.mem_append_left t hc)
  · intro he
    subst he
    exact hq hc

/-- The split-off netloc is delimiter-free and comes from the input. -/
theorem urlsplit_netloc_facts (u : List Char) :
    ∀ c ∈ (urlsplit u).netloc,
      isNetlocDelim c = false ∧ c ∈ removeUnsafeBytes u := by
  intro c hc
  rw [urlsplit_netloc] at hc
  by_cases h2 : (parseScheme (removeUnsafeBytes u)).2.take 2 = ['/', '/']
  · rw [netlocSplit_pos _ h2] at hc
    refine ⟨by simpa using List.mem_takeWhile_imp hc, ?_⟩
    have hsub : c ∈ (parseScheme (removeUnsafeBytes u)).2.drop 2 :=
      ((List.takeWhile_sublist _).subset) hc
    exact parseScheme_snd_subset (removeUnsafeBytes u) c
      (List.drop_subset 2 _ hsub)
  · rw [netlocSplit_neg _ h2] at hc
    exact absurd hc (List.not_mem_nil c)

/-- The split-off path comes from the input. -/
theorem urlsplit_path_subset (u : List Char) :
    ∀ c ∈ (urlsplit u).path, c ∈ removeUnsafeBytes u := by
  intro c hc
  rw [urlsplit_path] at hc
  obtain ⟨t, hdec, -⟩ := querySplit_decomp (urlsplitFragSplit
    (urlsplitNetlocSplit (parseScheme (removeUnsafeBytes u)).2).2).1
  obtain ⟨t2, hdec2, -⟩ := fragSplit_decomp
    (urlsplitNetlocSplit (parseScheme (removeUnsafeBytes u)).2).2
  have hc3 : c ∈ (urlsplitNetlocSplit
      (parseScheme (removeUnsafeBytes u)).2).2 := by
    rw [hdec2, hdec]
    exact List.mem_append_left t2 (List.mem_append_left t hc)
  by_cases h2 : (parseScheme (removeUnsafeBytes u)).2.take 2 = ['/', '/']
  · rw [netlocSplit_pos _ h2] at hc3
    exact parseScheme_snd_subset (removeUnsafeBytes u) c
      (List.drop_subset 2 _ ((List.dropWhile_sublist _).subset hc3))
  · rw [netlocSplit_neg _ h2] at hc3
    exact parseScheme_snd_subset (removeUnsafeBytes u) c hc3

/-- With no scheme and no netloc, the path either heads the cleaned URL
or is empty or absolute. -/
theorem urlsplit_path_shape (u : List Char)
    (hsch : (urlsplit u).scheme = []) :
    (∃ t, removeUnsafeBytes u = (urlsplit u).path ++ t) ∨
      ((urlsplit u).path = [] ∨ ∃ t, (urlsplit u).path = '/' :: t) := by
  have hps : parseScheme (removeUnsafeBytes u) = ([], removeUnsafeBytes u) :=
    parseScheme_fst_nil _ (by rw [← urlsplit_scheme]; exact hsch)
  obtain ⟨t, hdec, -⟩ := querySplit_decomp (urlsplitFragSplit
    (urlsplitNetlocSplit (parseScheme (removeUnsafeBytes u)).2).2).1
  obtain ⟨t2, hdec2, -⟩ := fragSplit_decomp
    (urlsplitNetlocSplit (parseScheme (removeUnsafeBytes u)).2).2
  by_cases h2 : (parseScheme (removeUnsafeBytes u)).2.take 2 = ['/', '/']
  · right
    cases hp : (urlsplit u).path with
    | nil => exact Or.inl rfl
    | cons c cs =>
      refine Or.inr ⟨cs, ?_⟩
      have hdelim : isNetlocDelim c = true := by
        have hc3 : (urlsplitNetlocSplit
            (parseScheme (removeUnsafeBytes u)).2).2 = c :: (cs ++ t ++ t2) := by
          rw [hdec2, hdec, ← urlsplit_path, hp]
          simp
        rw [netlocSplit_pos _ h2] at hc3
        have := head_dropWhile_not _ _ c _ hc3
        simpa using this
      have hchars := urlsplit_path_chars u c (by
        rw [hp]; exact List.mem_cons_self c cs)
      rw [isNetlocDelim_iff] at hdelim
      have hc47 : c.toNat = 47 := by
        rcases hdelim with h | h | h
        · exact h
        · exact absurd ((char_eq_iff c '?').mpr (h.trans rfl)) hchars.2
        · exact absurd ((char_eq_iff c '#').mpr (h.trans rfl)) hchars.1
      rw [(char_eq_iff c '/').mpr (hc47.trans rfl)]
  · left
    refine ⟨t ++ t2, ?_⟩
    have hu2 : (parseScheme (removeUnsafeBytes u)).2 = removeUnsafeBytes u := by
      rw [hps]
    have hnl : (urlsplitNetlocSplit (parseScheme (removeUnsafeBytes u)).2).2 =
        (parseScheme (removeUnsafeBytes u)).2 := by
      rw [netlocSplit_neg _ h2]
    conv_lhs => rw [← hu2, ← hnl, hdec2, hdec]
    rw [urlsplit_path, List.append_assoc]

/-- With no scheme and no netloc, a leading colon segment of the path
is not a well-formed scheme (otherwise `urlsplit` would have parsed it). -/
theorem urlsplit_noscheme (u : List Char)
    (hsch : (urlsplit u).scheme = []) (hnet : (urlsplit u).netloc = []) :
    ∀ b a, ':' ∉ b → (urlsplit u).path = b ++ ':' :: a →
      b = [] ∨ ∃ c cs, b = c :: cs ∧
        (c.isAlpha = false ∨ cs.all isSchemeChar = false) := by
  intro b a hnb hdec
  cases hb : b with
  | nil => exact Or.inl rfl
  | cons c cs =>
    subst hb
    rcases urlsplit_path_shape u hsch with ⟨t, hpre⟩ | (hnil | ⟨t, hslash⟩)
    · -- the path heads the cleaned URL, so parseScheme saw this colon
      have hps : parseScheme (removeUnsafeBytes u) =
          ([], removeUnsafeBytes u) :=
        parseScheme_fst_nil _ (by rw [← urlsplit_scheme]; exact hsch)
      have hu1 : removeUnsafeBytes u = (c :: cs) ++ ':' :: (a ++ t) := by
        rw [hpre, hdec]
        simp
      have hsp : splitFirst ':' (removeUnsafeBytes u) =
          some (c :: cs, a ++ t) := by
        rw [hu1]
        exact splitFirst_append ':' (c :: cs) (a ++ t) hnb
      by_cases hA : c.isAlpha = true
      · by_cases hS : cs.all isSchemeChar = true
        · exfalso
          have : parseScheme (removeUnsafeBytes u) =
              (toLowerList (c :: cs), a ++ t) := by
            rw [hu1]
            exact parseScheme_valid c cs (a ++ t) hA hS hnb
          rw [hps] at this
          have := congrArg Prod.fst this
          simp [toLowerList] at this
        · exact Or.inr ⟨c, cs, rfl, Or.inr (by
            rw [Bool.eq_false_iff]; exact hS)⟩
      · exact Or.inr ⟨c, cs, rfl, Or.inl (by
          rw [Bool.eq_false_iff]; exact hA)⟩
    · rw [hnil] at hdec
      exact absurd hdec.symm (by simp)
    · rw [hdec] at hslash
      rw [List.cons_append, List.cons_eq_cons] at hslash
      exact Or.inr ⟨c, cs, rfl, Or.inl (by
        rw [hslash.1]
        decide)⟩

set_option maxHeartbeats 1000000 in
/-- Membership in an `urlunsplit` output comes from a component or a
joining delimiter. -/
theorem urlunsplit_mem (p : SplitResult) :
    ∀ c ∈ urlunsplit p, c ∈ p.scheme ∨ c ∈ p.netloc ∨ c ∈ p.path ∨
      c ∈ p.query ∨ c ∈ p.fragment ∨ c = ':' ∨ c = '/' ∨ c = '?' ∨
      c = '#' := by
  intro c hc
  simp only [urlunsplit] at hc
  split_ifs at hc <;>
    (try simp only [List.mem_append, List.mem_cons, List.not_mem_nil,
      List.nil_append, List.cons_append, or_false, false_or] at hc) <;>
    tauto

/-- An `urlunsplit` output with clean components and a printable lead
survives `removeUnsafeBytes` unchanged. -/
theorem urlunsplit_clean (p : SplitResult)
    (hfrag : p.fragment = [])
    (hs : ∀ c ∈ p.scheme, ¬ (c = '\t' ∨ c = '\x0d' ∨ c = '\n'))
    (hn : ∀ c ∈ p.netloc, ¬ (c = '\t' ∨ c = '\x0d' ∨ c = '\n'))
    (hp : ∀ c ∈ p.path, ¬ (c = '\t' ∨ c = '\x0d' ∨ c = '\n'))
    (hq : ∀ c ∈ p.query, ¬ (c = '\t' ∨ c = '\x0d' ∨ c = '\n'))
    (hshead : p.scheme = [] ∨ ∃ c cs, p.scheme = c :: cs ∧ 0x20 < c.toNat)
    (hphead : p.scheme = [] →
      ¬ (p.netloc ≠ [] ∨ (p.scheme ≠ [] ∧ p.scheme ∈ usesNetloc ∧
        p.path.take 2 ≠ ['/', '/'])) →
      p.path = [] ∨ ∃ c t, p.path = c :: t ∧ 0x20 < c.toNat) :
    removeUnsafeBytes (urlunsplit p) = urlunsplit p := by
  apply removeUnsafeBytes_eq_self
  · intro c hc
    rcases urlunsplit_mem p c hc with h | h | h | h | h | h | h | h | h
    · exact hs c h
    · exact hn c h
    · exact hp c h
    · exact hq c h
    · rw [hfrag] at h; exact absurd h (List.not_mem_nil c)
    · subst h; decide
    · subst h; decide
    · subst h; decide
    · subst h; decide
  · have hfragne : ¬ p.fragment ≠ [] := fun hne => hne hfrag
    rcases hshead with hnil | ⟨c, cs, hsch, hc32⟩
    · have hsnne : ¬ p.scheme ≠ [] := fun hne => hne hnil
      by_cases hCc : (p.netloc ≠ [] ∨ (p.scheme ≠ [] ∧
          p.scheme ∈ usesNetloc ∧ p.path.take 2 ≠ ['/', '/']))
      · right
        simp only [urlunsplit]
        rw [if_neg hfragne, if_pos hCc, if_neg hsnne]
        by_cases hq2 : p.query = []
        · have hqnne : ¬ p.query ≠ [] := fun hne => hne hq2
          rw [if_neg hqnne]
          simp only [List.cons_append, List.nil_append, List.append_assoc]
          exact ⟨'/', _, rfl, by decide⟩
        · rw [if_pos hq2]
          simp only [List.cons_append, List.nil_append, List.append_assoc]
          exact ⟨'/', _, rfl, by decide⟩
      · rcases hphead hnil hCc with hpnil | ⟨d, t, hpd, hd32⟩
        · simp only [urlunsplit]
          rw [if_neg hfragne, if_neg hCc, if_neg hsnne, hpnil]
          by_cases hq2 : p.query = []
          · have hqnne : ¬ p.query ≠ [] := fun hne => hne hq2
            rw [if_neg hqnne]
            exact Or.inl rfl
          · rw [if_pos hq2]
            right
            simp only [List.nil_append]
            exact ⟨'?', _, rfl, by decide⟩
        · right
          simp only [urlunsplit]
          rw [if_neg hfragne, if_neg hCc, if_neg hsnne, hpd]
          by_cases hq2 : p.query = []
          · have hqnne : ¬ p.query ≠ [] := fun hne => hne hq2
            rw [if_neg hqnne]
            exact ⟨d, t, rfl, hd32⟩
          · rw [if_pos hq2]
            simp only [List.cons_append]
            exact ⟨d, _, rfl, hd32⟩
    · right
      have hsne0 : p.scheme ≠ [] := by rw [hsch]; simp
      simp only [urlunsplit]
      rw [if_neg hfragne, if_pos hsne0, hsch]
      by_cases hq2 : p.query = []
      · have hqnne : ¬ p.query ≠ [] := fun hne => hne hq2
        rw [if_neg hqnne]
        simp only [List.cons_append]
        exact ⟨c, _, rfl, hc32⟩
      · rw [if_pos hq2]
        simp only [List.cons_append]
        exact ⟨c, _, rfl, hc32⟩

/-- `canonicalise_url` is idempotent wherever the split does not hit the
empty-netloc, `//`-path corner. -/
theorem canonicalise_url_idem_aux (u : List Char)
    (H : ¬ ((urlsplit u).netloc = [] ∧
      (urlsplit u).path.take 2 = ['/', '/'])) :
    canonicalise_url (canonicalise_url u) = canonicalise_url u := by
  have hcanon : canonicalise_url u = urlunsplit
      { scheme := (urlsplit u).scheme
        netloc := (urlsplit u).netloc
        path := (urlsplit u).path
        query := urlencode ((parse_qsl (urlsplit u).query).filter
          (fun kv => !isUtmKey kv.1))
        fragment := [] } := rfl
  rw [hcanon]
  apply canonicalise_url_unsplit_fixed
  · rfl
  · show (urlsplit u).scheme = [] ∨ ∃ c cs, (urlsplit u).scheme = c :: cs ∧
      c.isAlpha = true ∧ cs.all isSchemeChar = true ∧
      toLowerList (urlsplit u).scheme = (urlsplit u).scheme
    rw [urlsplit_scheme]
    exact parseScheme_shape _
  · intro c hc
    exact (urlsplit_netloc_facts u c hc).1
  · exact urlsplit_path_chars u
  · intro hn htake
    exact absurd ⟨hn, htake⟩ H
  · intro hsch hnet
    exact urlsplit_noscheme u hsch hnet
  · apply urlunsplit_clean
    · rfl
    · intro c hc
      have hc2 : c ∈ (parseScheme (removeUnsafeBytes u)).1 := hc
      obtain ⟨d, hd, hcd⟩ := parseScheme_fst_subset _ c hc2
      rw [hcd]
      exact pyToLower_not_bad d (removeUnsafeBytes_not_bad u d hd)
    · intro c hc
      exact removeUnsafeBytes_not_bad u c ((urlsplit_netloc_facts u c hc).2)
    · intro c hc
      exact removeUnsafeBytes_not_bad u c (urlsplit_path_subset u c hc)
    · intro c hc
      exact (urlencode_char_facts _ c hc).2.2.2.2.2.2
    · show (urlsplit u).scheme = [] ∨ ∃ c cs,
        (urlsplit u).scheme = c :: cs ∧ 0x20 < c.toNat
      rcases parseScheme_shape (removeUnsafeBytes u) with h |
        ⟨c, cs, hcons, ha, -, -⟩
      · exact Or.inl (by rw [urlsplit_scheme]; exact h)
      · refine Or.inr ⟨c, cs, by rw [urlsplit_scheme]; exact hcons, ?_⟩
        rw [isAlpha_iff] at ha
        omega
    · intro hsch hCc
      show (urlsplit u).path = [] ∨ ∃ c t, (urlsplit u).path = c :: t ∧
        0x20 < c.toNat
      replace hsch : (urlsplit u).scheme = [] := hsch
      rcases urlsplit_path_shape u hsch with ⟨t, hpre⟩ | (hnil | ⟨t, hsl⟩)
      · rcases removeUnsafeBytes_head u with h | ⟨c, t2, hc, hc32⟩
        · left
          rw [h] at hpre
          exact (List.append_eq_nil.mp hpre.symm).1
        · cases hp : (urlsplit u).path with
          | nil => exact Or.inl rfl
          | cons d ds =>
            refine Or.inr ⟨d, ds, rfl, ?_⟩
            rw [hp, hc, List.cons_append, List.cons_eq_cons] at hpre
            rw [← hpre.1]
            exact hc32
      · exact Or.inl hnil
      · exact Or.inr ⟨'/', t, hsl, by decide⟩
  · exact ⟨(parse_qsl (urlsplit u).query).filter (fun kv => !isUtmKey kv.1),
      rfl, fun kv hkv => by
        rw [List.mem_filter] at hkv
        have h2 := hkv.2
        rw [Bool.not_eq_true'] at h2
        exact h2⟩

set_option maxRecDepth 1000000 in
set_option maxHeartbeats 4000000 in
/-- C8 counterexample: `canonicalise_url` is not idempotent on CPython
3.11 semantics: `canonicalise_url "//////x"` is `"////x"`, and applying
it again gives `"//x"`, a different string (the failing corner is a
split with empty netloc and a path starting `//`). -/
theorem canonicalise_url_not_idempotent :
    canonicalise_url "//////x".toList = "////x".toList ∧
    canonicalise_url (canonicalise_url "//////x".toList) ≠
      canonicalise_url "//////x".toList := by
  decide

set_option maxRecDepth 1000000 in
set_option maxHeartbeats 4000000 in
/-- C8 (amended): for every URL except those whose split has an empty
netloc together with a path beginning `//`, canonicalisation is
idempotent: `canonicalise_url (canonicalise_url u) = canonicalise_url u`;
and canonicalisation strips `utm_*` query parameters and the fragment
while keeping other parameters, so the example
`https://x.com/a?utm_source=y&keep=1#frag` canonicalises equal to
`https://x.com/a?keep=1`. -/
theorem canonicalise_url_idem :
    (∀ u : List Char,
      ¬ ((urlsplit u).netloc = [] ∧ (urlsplit u).path.take 2 = ['/', '/']) →
      canonicalise_url (canonicalise_url u) = canonicalise_url u) ∧
    canonicalise_url "https://x.com/a?utm_source=y&keep=1#frag".toList =
      canonicalise_url "https://x.com/a?keep=1".toList := by
  constructor
  · exact canonicalise_url_idem_aux
  · decide

set_option maxRecDepth 1000000 in
set_option maxHeartbeats 4000000 in
/-- Witness for C8: the amended idempotence applied at the example URL,
whose split has the nonempty netloc `x.com`. -/
theorem canonicalise_url_idem_witness :
    canonicalise_url (canonicalise_url
        "https://x.com/a?utm_source=y&keep=1#frag".toList) =
      canonicalise_url "https://x.com/a?utm_source=y&keep=1#frag".toList :=
  canonicalise_url_idem.1 _ (by decide)
